import Mathlib

/-!
Verification development for the BigWorldSetup-Enhanced-Edition order-generation
core.  The definitions below are a shallow embedding of the Python sources:

* `core/OrderGenerator.py` — `OrderGenerator.generate`,
  `_get_components_with_rules`, `_build_dependency_graph`,
  `_topological_sort` (Kahn's algorithm with a FIFO deque),
  `_merge_orders`, `_find_best_position`;
* `core/models/PauseEntry.py` — pause-token construction, `__str__`, `parse`;
* `core/OrderImportExportManager.py` — `OrderFileParser.parse` error
  classification.

Python `set`s are modelled as duplicate-free `List`s (insertion only when the
element is absent), Python `dict`s that map nodes to in-degrees are modelled as
functions, and Python strings as Lean `String` / `List Char`.  The files
`core/ComponentReference.py`, `core/Rules.py` and `core/RuleManager.py` are not
part of the provided sources; the corresponding data model is modelled from the
specification (see the doc comments on those definitions).
-/

/-- Modelled from the spec: `ComponentReference` (core/ComponentReference.py is
not among the provided sources).  Immutable pair `(mod_id, comp_key)` with
structural equality; the total order used everywhere for tie-breaking is
lexicographic on `(mod_id, comp_key)`. -/
structure ComponentReference where
  mod_id : String
  comp_key : String
deriving DecidableEq

/-- Lexicographic comparison of character lists by code point — the
semantics of Python `str < str` (and of Lean `String.lt`), written
structurally so that the kernel can evaluate it. -/
def charsLt : List Char → List Char → Bool
  | [], [] => false
  | [], _ :: _ => true
  | _ :: _, [] => false
  | c :: cs, d :: ds => if c < d then true else if d < c then false else charsLt cs ds

theorem charsLt_cons_iff {a b : Char} {x y : List Char} :
    charsLt (a :: x) (b :: y) = true ↔ a < b ∨ (a = b ∧ charsLt x y = true) := by
  have hc : charsLt (a :: x) (b :: y) =
      (if a < b then true else if b < a then false else charsLt x y) := rfl
  rw [hc]
  by_cases hab : a < b
  · simp [hab]
  · rw [if_neg hab]
    by_cases hba : b < a
    · rw [if_pos hba]
      constructor
      · intro h
        exact absurd h (by simp)
      · rintro (h | ⟨rfl, _⟩)
        · exact absurd h hab
        · exact absurd hba (lt_irrefl a)
    · rw [if_neg hba]
      have hEq : a = b := le_antisymm (not_lt.mp hba) (not_lt.mp hab)
      constructor
      · intro h
        exact Or.inr ⟨hEq, h⟩
      · rintro (h | ⟨_, h⟩)
        · exact absurd h hab
        · exact h

theorem charsLt_irrefl : ∀ s : List Char, charsLt s s = false := by
  intro s
  induction s with
  | nil => rfl
  | cons c cs ih =>
    unfold charsLt
    rw [if_neg (lt_irrefl c), if_neg (lt_irrefl c)]
    exact ih

theorem charsLt_trans : ∀ (s t u : List Char),
    charsLt s t = true → charsLt t u = true → charsLt s u = true := by
  intro s
  induction s with
  | nil =>
    intro t u hst htu
    cases t with
    | nil => exact absurd hst (by simp [charsLt])
    | cons d ds =>
      cases u with
      | nil => exact absurd htu (by simp [charsLt])
      | cons e es => rfl
  | cons c cs ih =>
    intro t u hst htu
    cases t with
    | nil => exact absurd hst (by simp [charsLt])
    | cons d ds =>
      cases u with
      | nil => exact absurd htu (by simp [charsLt])
      | cons e es =>
        rcases charsLt_cons_iff.mp hst with hcd | ⟨rfl, hcd⟩
        · rcases charsLt_cons_iff.mp htu with hde | ⟨rfl, _⟩
          · exact charsLt_cons_iff.mpr (Or.inl (hcd.trans hde))
          · exact charsLt_cons_iff.mpr (Or.inl hcd)
        · rcases charsLt_cons_iff.mp htu with hde | ⟨rfl, hde⟩
          · exact charsLt_cons_iff.mpr (Or.inl hde)
          · exact charsLt_cons_iff.mpr (Or.inr ⟨rfl, ih ds es hcd hde⟩)

theorem charsLt_trichotomy : ∀ s t : List Char,
    charsLt s t = true ∨ charsLt t s = true ∨ s = t := by
  intro s
  induction s with
  | nil =>
    intro t
    cases t with
    | nil => exact Or.inr (Or.inr rfl)
    | cons d ds => exact Or.inl rfl
  | cons c cs ih =>
    intro t
    cases t with
    | nil => exact Or.inr (Or.inl rfl)
    | cons d ds =>
      rcases lt_trichotomy c d with hcd | hcd | hcd
      · exact Or.inl (charsLt_cons_iff.mpr (Or.inl hcd))
      · subst hcd
        rcases ih ds with h | h | h
        · exact Or.inl (charsLt_cons_iff.mpr (Or.inr ⟨rfl, h⟩))
        · exact Or.inr (Or.inl (charsLt_cons_iff.mpr (Or.inr ⟨rfl, h⟩)))
        · exact Or.inr (Or.inr (by rw [h]))
      · exact Or.inr (Or.inl (charsLt_cons_iff.mpr (Or.inl hcd)))

theorem charsLt_asymm {s t : List Char} (h : charsLt s t = true) :
    charsLt t s = false := by
  by_contra hc
  have h' : charsLt t s = true := by
    cases hts : charsLt t s
    · exact absurd hts hc
    · rfl
  have := charsLt_trans s t s h h'
  rw [charsLt_irrefl] at this
  exact absurd this (by simp)

theorem string_data_ext {s t : String} (h : s.data = t.data) : s = t := by
  cases s
  cases t
  exact congrArg String.mk h

/-- The comparison key used throughout `OrderGenerator`:
`key=lambda r: (r.mod_id, r.comp_key)`, compared lexicographically — the
first components by Python string `<`, with the second components breaking
ties. -/
def crKeyLE (a b : ComponentReference) : Prop :=
  charsLt a.mod_id.data b.mod_id.data = true ∨
    (a.mod_id = b.mod_id ∧ charsLt b.comp_key.data a.comp_key.data = false)

instance : DecidableRel crKeyLE := fun a b => by
  unfold crKeyLE; infer_instance

theorem crKeyLE_total (a b : ComponentReference) : crKeyLE a b ∨ crKeyLE b a := by
  rcases charsLt_trichotomy a.mod_id.data b.mod_id.data with h | h | h
  · exact Or.inl (Or.inl h)
  · exact Or.inr (Or.inl h)
  · have hmod : a.mod_id = b.mod_id := string_data_ext h
    rcases charsLt_trichotomy b.comp_key.data a.comp_key.data with h2 | h2 | h2
    · exact Or.inr (Or.inr ⟨hmod.symm, charsLt_asymm h2⟩)
    · exact Or.inl (Or.inr ⟨hmod, charsLt_asymm h2⟩)
    · exact Or.inl (Or.inr ⟨hmod, by rw [h2, charsLt_irrefl]⟩)

theorem crKeyLE_trans {a b c : ComponentReference}
    (hab : crKeyLE a b) (hbc : crKeyLE b c) : crKeyLE a c := by
  rcases hab with h1 | ⟨h1, h1'⟩
  · rcases hbc with h2 | ⟨h2, _⟩
    · exact Or.inl (charsLt_trans _ _ _ h1 h2)
    · exact Or.inl (h2 ▸ h1)
  · rcases hbc with h2 | ⟨h2, h2'⟩
    · exact Or.inl (h1 ▸ h2)
    · refine Or.inr ⟨h1.trans h2, ?_⟩
      cases hca : charsLt c.comp_key.data a.comp_key.data
      · rfl
      · exfalso
        rcases charsLt_trichotomy c.comp_key.data b.comp_key.data with h3 | h3 | h3
        · rw [h2'] at h3
          exact absurd h3 (by simp)
        · have h4 := charsLt_trans _ _ _ h3 hca
          rw [h1'] at h4
          exact absurd h4 (by simp)
        · rw [h3] at hca
          rw [h1'] at hca
          exact absurd hca (by simp)

theorem crKeyLE_antisymm {a b : ComponentReference}
    (hab : crKeyLE a b) (hba : crKeyLE b a) : a = b := by
  rcases hab with h1 | ⟨h1, h1'⟩
  · rcases hba with h2 | ⟨h2, _⟩
    · rw [charsLt_asymm h1] at h2
      exact absurd h2 (by simp)
    · rw [h2, charsLt_irrefl] at h1
      exact absurd h1 (by simp)
  · rcases hba with h2 | ⟨h2, h2'⟩
    · rw [h1, charsLt_irrefl] at h2
      exact absurd h2 (by simp)
    · have hck : a.comp_key = b.comp_key := by
        rcases charsLt_trichotomy a.comp_key.data b.comp_key.data with h3 | h3 | h3
        · rw [h3] at h2'
          exact absurd h2' (by simp)
        · rw [h3] at h1'
          exact absurd h1' (by simp)
        · exact string_data_ext h3
      cases a
      cases b
      simp only at h1 hck
      simp [h1, hck]

instance : IsTotal ComponentReference crKeyLE := ⟨crKeyLE_total⟩
instance : IsTrans ComponentReference crKeyLE := ⟨fun _ _ _ => crKeyLE_trans⟩
instance : IsAntisymm ComponentReference crKeyLE := ⟨fun _ _ => crKeyLE_antisymm⟩

/-- Python's `sorted(..., key=lambda r: (r.mod_id, r.comp_key))`.  Since the
key is the whole reference, any correct sort produces the same output; we use
insertion sort. -/
def sortCR (l : List ComponentReference) : List ComponentReference :=
  l.insertionSort crKeyLE

theorem sortCR_perm (l : List ComponentReference) : (sortCR l).Perm l :=
  List.perm_insertionSort crKeyLE l

theorem sortCR_sorted (l : List ComponentReference) : List.Sorted crKeyLE (sortCR l) :=
  List.sorted_insertionSort crKeyLE l

theorem mem_sortCR {l : List ComponentReference} {x : ComponentReference} :
    x ∈ sortCR l ↔ x ∈ l :=
  (sortCR_perm l).mem_iff

theorem sortCR_nodup {l : List ComponentReference} (h : l.Nodup) : (sortCR l).Nodup :=
  ((sortCR_perm l).nodup_iff).mpr h

/-- Two permuted lists have the same canonical sort. -/
theorem sortCR_eq_of_perm {l₁ l₂ : List ComponentReference} (h : l₁.Perm l₂) :
    sortCR l₁ = sortCR l₂ :=
  List.eq_of_perm_of_sorted ((sortCR_perm l₁).trans (h.trans (sortCR_perm l₂).symm))
    (sortCR_sorted l₁) (sortCR_sorted l₂)

/-- Modelled from the spec: `OrderDirection` from `core/Rules.py` (not among
the provided sources): `BEFORE` means every source precedes every target,
`AFTER` means every source follows every target. -/
inductive OrderDirection where
  | BEFORE
  | AFTER
deriving DecidableEq

/-- Modelled from the spec: `DependencyRule` from `core/Rules.py` (not among
the provided sources).  The Python `set`s of references are modelled as
lists; only membership in them is ever used. -/
structure DependencyRule where
  sources : List ComponentReference
  targets : List ComponentReference
  implicit_order : Bool
deriving DecidableEq

/-- Modelled from the spec: `OrderRule` from `core/Rules.py` (not among the
provided sources). -/
structure OrderRule where
  sources : List ComponentReference
  targets : List ComponentReference
  order_direction : OrderDirection
deriving DecidableEq

/-- Modelled from the spec: the rule set is a closed tagged union of
`DependencyRule` and `OrderRule`. -/
inductive Rule where
  | dep (r : DependencyRule)
  | ord (r : OrderRule)
deriving DecidableEq

def Rule.sources : Rule → List ComponentReference
  | .dep r => r.sources
  | .ord r => r.sources

def Rule.targets : Rule → List ComponentReference
  | .dep r => r.targets
  | .ord r => r.targets

/-- Modelled from the spec: `RuleManager.get_rules_for_component` (the
`RuleManager` class is not among the provided sources; per the spec it returns
the rules where the reference appears as a source or target of any rule).
The manager's whole rule set is modelled as the list `rules`. -/
def getRulesForComponent (rules : List Rule) (ref : ComponentReference) : List Rule :=
  rules.filter (fun r => decide (ref ∈ r.sources ∨ ref ∈ r.targets))

/-- Modelled from the spec: `RuleManager.get_dependency_rules`. -/
def getDependencyRules (rules : List Rule) : List DependencyRule :=
  rules.filterMap (fun r => match r with | .dep d => some d | .ord _ => none)

/-- Modelled from the spec: `RuleManager.get_order_rules`. -/
def getOrderRules (rules : List Rule) : List OrderRule :=
  rules.filterMap (fun r => match r with | .dep _ => none | .ord o => some o)

/-- Python `set.add`: append only when absent, keeping the list duplicate
free. -/
def insertSet (l : List ComponentReference) (x : ComponentReference) :
    List ComponentReference :=
  if x ∈ l then l else l ++ [x]

/-- Python set union `s | t` (the iteration order of a Python set is
arbitrary; we fix one and prove the results do not depend on it). -/
def unionSet (l extra : List ComponentReference) : List ComponentReference :=
  extra.foldl insertSet l

theorem mem_insertSet {l : List ComponentReference} {x y : ComponentReference} :
    y ∈ insertSet l x ↔ y ∈ l ∨ y = x := by
  unfold insertSet
  split
  · rename_i h
    constructor
    · exact Or.inl
    · rintro (h' | rfl)
      · exact h'
      · exact h
  · simp

theorem insertSet_nodup {l : List ComponentReference} (h : l.Nodup)
    (x : ComponentReference) : (insertSet l x).Nodup := by
  unfold insertSet
  split
  · exact h
  · rename_i hx
    simpa [List.nodup_append] using ⟨h, fun h' => hx h'⟩

theorem mem_unionSet {l extra : List ComponentReference} {y : ComponentReference} :
    y ∈ unionSet l extra ↔ y ∈ l ∨ y ∈ extra := by
  induction extra generalizing l with
  | nil => simp [unionSet]
  | cons x xs ih =>
    show y ∈ unionSet (insertSet l x) xs ↔ _
    rw [ih, mem_insertSet]
    simp [or_assoc, or_comm, or_left_comm]

theorem unionSet_nodup {l extra : List ComponentReference} (h : l.Nodup) :
    (unionSet l extra).Nodup := by
  induction extra generalizing l with
  | nil => exact h
  | cons x xs ih => exact ih (insertSet_nodup h x)

/-- Inserting the same element into permuted duplicate-free lists yields
permuted lists. -/
theorem insertSet_perm {l₁ l₂ : List ComponentReference} (h : l₁.Perm l₂)
    (x : ComponentReference) : (insertSet l₁ x).Perm (insertSet l₂ x) := by
  unfold insertSet
  by_cases hx : x ∈ l₁
  · rw [if_pos hx, if_pos (h.mem_iff.mp hx)]; exact h
  · rw [if_neg hx, if_neg (fun h' => hx (h.mem_iff.mpr h'))]
    exact h.append_right [x]

theorem unionSet_perm {l₁ l₂ : List ComponentReference} (h : l₁.Perm l₂)
    (extra : List ComponentReference) : (unionSet l₁ extra).Perm (unionSet l₂ extra) := by
  induction extra generalizing l₁ l₂ with
  | nil => exact h
  | cons x xs ih => exact ih (insertSet_perm h x)

/-- Generic preservation of an invariant along `List.foldl`. -/
theorem foldl_preserves {α β : Type} (P : β → Prop) (f : β → α → β)
    (h : ∀ b a, P b → P (f b a)) :
    ∀ (l : List α) (b : β), P b → P (l.foldl f b) := by
  intro l
  induction l with
  | nil => intro b hb; exact hb
  | cons x xs ih => intro b hb; exact ih (f b x) (h b x hb)

/-- Generic membership characterization for a `foldl` whose step only adds
elements described by `C`. -/
theorem mem_foldl_of_mem_step {α β : Type} (f : List β → α → List β)
    (C : α → β → Prop) (hf : ∀ es x q, q ∈ f es x ↔ q ∈ es ∨ C x q) :
    ∀ (l : List α) (es : List β) (q : β),
      q ∈ l.foldl f es ↔ q ∈ es ∨ ∃ x ∈ l, C x q := by
  intro l
  induction l with
  | nil => simp
  | cons x xs ih =>
    intro es q
    rw [List.foldl_cons, ih, hf]
    constructor
    · rintro ((h | h) | ⟨y, hy, hC⟩)
      · exact Or.inl h
      · exact Or.inr ⟨x, List.mem_cons_self x xs, h⟩
      · exact Or.inr ⟨y, List.mem_cons_of_mem x hy, hC⟩
    · rintro (h | ⟨y, hy, hC⟩)
      · exact Or.inl (Or.inl h)
      · rcases List.mem_cons.mp hy with rfl | hy'
        · exact Or.inl (Or.inr hC)
        · exact Or.inr ⟨y, hy', hC⟩

/-- The in-code filter of `_get_components_with_rules`: a rule affects
ordering when it is a `DependencyRule` with `implicit_order` set or any
`OrderRule` (the `isinstance` check of line 91 is vacuous in the closed rule
model). -/
def ruleAffectsOrdering : Rule → Bool
  | .dep d => d.implicit_order
  | .ord _ => true

/-- Inner loop of `_get_components_with_rules`: add every target of `rule`
that is also selected. -/
def addSelectedTargets (selectedRefs acc : List ComponentReference) (rule : Rule) :
    List ComponentReference :=
  rule.targets.foldl (fun a t => if t ∈ selectedRefs then insertSet a t else a) acc

/-- `OrderGenerator._get_components_with_rules` (lines 67–98): every selected
reference with at least one rule is added, together with the selected targets
of its order-affecting rules. -/
def getComponentsWithRules (rules : List Rule) (selectedRefs : List ComponentReference) :
    List ComponentReference :=
  selectedRefs.foldl (fun acc reference =>
    let rulesFor := getRulesForComponent rules reference
    if rulesFor.isEmpty then acc
    else
      rulesFor.foldl (fun a rule =>
        if ruleAffectsOrdering rule then addSelectedTargets selectedRefs a rule else a)
        (insertSet acc reference)) []

theorem mem_addSelectedTargets {selectedRefs acc : List ComponentReference}
    {rule : Rule} {y : ComponentReference} :
    y ∈ addSelectedTargets selectedRefs acc rule ↔
      y ∈ acc ∨ (y ∈ rule.targets ∧ y ∈ selectedRefs) := by
  unfold addSelectedTargets
  rw [mem_foldl_of_mem_step (fun a t => if t ∈ selectedRefs then insertSet a t else a)
      (fun t y => y = t ∧ t ∈ selectedRefs)]
  · constructor
    · rintro (h | ⟨t, ht, rfl, hsel⟩)
      · exact Or.inl h
      · exact Or.inr ⟨ht, hsel⟩
    · rintro (h | ⟨ht, hsel⟩)
      · exact Or.inl h
      · exact Or.inr ⟨y, ht, rfl, hsel⟩
  · intro es t q
    split
    · rename_i hsel
      rw [mem_insertSet]
      constructor
      · rintro (h | rfl)
        · exact Or.inl h
        · exact Or.inr ⟨rfl, hsel⟩
      · rintro (h | ⟨rfl, _⟩)
        · exact Or.inl h
        · exact Or.inr rfl
    · rename_i hsel
      constructor
      · exact Or.inl
      · rintro (h | ⟨rfl, hs⟩)
        · exact h
        · exact absurd hs hsel

theorem addSelectedTargets_nodup {selectedRefs acc : List ComponentReference}
    {rule : Rule} (h : acc.Nodup) : (addSelectedTargets selectedRefs acc rule).Nodup := by
  unfold addSelectedTargets
  refine foldl_preserves List.Nodup _ ?_ _ _ h
  intro b t hb
  split
  · exact insertSet_nodup hb t
  · exact hb

/-- Membership in `_get_components_with_rules`: a reference is collected iff
it is selected and at least one rule names it (as a source or a target).  Note
that the rule need not affect ordering: the reference itself is added whenever
`get_rules_for_component` is nonempty (line 83), and any collected target is
itself selected with a rule naming it. -/
theorem mem_getComponentsWithRules {rules : List Rule}
    {selectedRefs : List ComponentReference} {y : ComponentReference} :
    y ∈ getComponentsWithRules rules selectedRefs ↔
      y ∈ selectedRefs ∧ getRulesForComponent rules y ≠ [] := by
  unfold getComponentsWithRules
  rw [mem_foldl_of_mem_step _
      (fun ref y => getRulesForComponent rules ref ≠ [] ∧
        (y = ref ∨ ∃ r ∈ getRulesForComponent rules ref,
          ruleAffectsOrdering r = true ∧ y ∈ r.targets ∧ y ∈ selectedRefs))]
  · constructor
    · rintro (h | ⟨ref, href, hne, rfl | ⟨r, hr, _, hty, hysel⟩⟩)
      · exact absurd h (List.not_mem_nil y)
      · exact ⟨href, hne⟩
      · refine ⟨hysel, ?_⟩
        have hrules : r ∈ rules := List.mem_of_mem_filter hr
        have : r ∈ getRulesForComponent rules y := by
          unfold getRulesForComponent
          exact List.mem_filter.mpr ⟨hrules, by simp [hty]⟩
        intro hempty
        rw [hempty] at this
        exact absurd this (List.not_mem_nil r)
    · rintro ⟨hysel, hne⟩
      exact Or.inr ⟨y, hysel, hne, Or.inl rfl⟩
  · intro es ref q
    simp only
    split
    · rename_i hEmpty
      rw [List.isEmpty_iff] at hEmpty
      constructor
      · exact Or.inl
      · rintro (h | ⟨hne, _⟩)
        · exact h
        · exact absurd hEmpty hne
    · rename_i hEmpty
      rw [List.isEmpty_iff] at hEmpty
      rw [mem_foldl_of_mem_step _
          (fun r q => ruleAffectsOrdering r = true ∧ q ∈ r.targets ∧ q ∈ selectedRefs)]
      · rw [mem_insertSet]
        constructor
        · rintro ((h | rfl) | ⟨r, hr, hC⟩)
          · exact Or.inl h
          · exact Or.inr ⟨hEmpty, Or.inl rfl⟩
          · exact Or.inr ⟨hEmpty, Or.inr ⟨r, hr, hC⟩⟩
        · rintro (h | ⟨_, rfl | ⟨r, hr, hC⟩⟩)
          · exact Or.inl (Or.inl h)
          · exact Or.inl (Or.inr rfl)
          · exact Or.inr ⟨r, hr, hC⟩
      · intro es' r q'
        split
        · rename_i hAff
          rw [mem_addSelectedTargets]
          constructor
          · rintro (h | ⟨ht, hs⟩)
            · exact Or.inl h
            · exact Or.inr ⟨hAff, ht, hs⟩
          · rintro (h | ⟨_, ht, hs⟩)
            · exact Or.inl h
            · exact Or.inr ⟨ht, hs⟩
        · rename_i hAff
          constructor
          · exact Or.inl
          · rintro (h | ⟨hA, _⟩)
            · exact h
            · exact absurd hA hAff

theorem getComponentsWithRules_nodup {rules : List Rule}
    {selectedRefs : List ComponentReference} :
    (getComponentsWithRules rules selectedRefs).Nodup := by
  unfold getComponentsWithRules
  refine foldl_preserves List.Nodup _ ?_ _ _ List.nodup_nil
  intro acc reference hacc
  simp only
  split
  · exact hacc
  · refine foldl_preserves List.Nodup _ ?_ _ _ (insertSet_nodup hacc reference)
    intro b rule hb
    split
    · exact addSelectedTargets_nodup hb
    · exact hb

/-- `add_edge` inside `_build_dependency_graph` (lines 120–129): skip
self-edges and edges with an endpoint outside the working node set, and add
the edge only when not already present (a repeated edge increments the
in-degree only once).  `graph[u]` and `in_degree[v]` of the source are the
successor and incoming-count views of this duplicate-free edge list. -/
def addEdge (componentsToOrder : List ComponentReference)
    (edges : List (ComponentReference × ComponentReference))
    (b a : ComponentReference) :
    List (ComponentReference × ComponentReference) :=
  if b = a then edges
  else if b ∉ componentsToOrder ∨ a ∉ componentsToOrder then edges
  else if (b, a) ∈ edges then edges
  else edges ++ [(b, a)]

theorem mem_addEdge {componentsToOrder : List ComponentReference}
    {edges : List (ComponentReference × ComponentReference)}
    {b a : ComponentReference} {q : ComponentReference × ComponentReference} :
    q ∈ addEdge componentsToOrder edges b a ↔
      q ∈ edges ∨ (q = (b, a) ∧ b ≠ a ∧ b ∈ componentsToOrder ∧ a ∈ componentsToOrder) := by
  unfold addEdge
  split
  · rename_i hba
    constructor
    · exact Or.inl
    · rintro (h | ⟨_, hne, _⟩)
      · exact h
      · exact absurd hba hne
  · rename_i hba
    split
    · rename_i hout
      constructor
      · exact Or.inl
      · rintro (h | ⟨_, _, hb, ha⟩)
        · exact h
        · rcases hout with h' | h'
          · exact absurd hb h'
          · exact absurd ha h'
    · rename_i hout
      push_neg at hout
      split
      · rename_i hmem
        constructor
        · exact Or.inl
        · rintro (h | ⟨rfl, _⟩)
          · exact h
          · exact hmem
      · simp only [List.mem_append, List.mem_singleton]
        constructor
        · rintro (h | rfl)
          · exact Or.inl h
          · exact Or.inr ⟨rfl, hba, hout.1, hout.2⟩
        · rintro (h | ⟨rfl, _⟩)
          · exact Or.inl h
          · exact Or.inr rfl

theorem addEdge_nodup {componentsToOrder : List ComponentReference}
    {edges : List (ComponentReference × ComponentReference)}
    {b a : ComponentReference} (h : edges.Nodup) :
    (addEdge componentsToOrder edges b a).Nodup := by
  unfold addEdge
  split
  · exact h
  · split
    · exact h
    · split
      · exact h
      · rename_i hmem
        simpa [List.nodup_append] using ⟨h, fun h' => hmem h'⟩

/-- Edges contributed by one `DependencyRule` (lines 131–147): for each target
and source in the working set, the dependency (target) must precede the
dependent (source). -/
def depRuleEdges (componentsToOrder : List ComponentReference)
    (edges : List (ComponentReference × ComponentReference))
    (rule : DependencyRule) : List (ComponentReference × ComponentReference) :=
  if !rule.implicit_order then edges
  else if (componentsToOrder.filter (fun ref => decide (ref ∈ rule.sources))).isEmpty then
    edges
  else if (componentsToOrder.filter (fun ref => decide (ref ∈ rule.targets))).isEmpty then
    edges
  else
    (componentsToOrder.filter (fun ref => decide (ref ∈ rule.targets))).foldl (fun es target =>
      (componentsToOrder.filter (fun ref => decide (ref ∈ rule.sources))).foldl
        (fun es' source => addEdge componentsToOrder es' target source) es)
      edges

/-- Edges contributed by one `OrderRule` (lines 149–166). -/
def ordRuleEdges (componentsToOrder : List ComponentReference)
    (edges : List (ComponentReference × ComponentReference))
    (rule : OrderRule) : List (ComponentReference × ComponentReference) :=
  if (componentsToOrder.filter (fun ref => decide (ref ∈ rule.sources))).isEmpty then edges
  else if (componentsToOrder.filter (fun ref => decide (ref ∈ rule.targets))).isEmpty then
    edges
  else
    (componentsToOrder.filter (fun ref => decide (ref ∈ rule.sources))).foldl (fun es source =>
      (componentsToOrder.filter (fun ref => decide (ref ∈ rule.targets))).foldl
        (fun es' target =>
          match rule.order_direction with
          | .BEFORE => addEdge componentsToOrder es' source target
          | .AFTER => addEdge componentsToOrder es' target source) es)
      edges

/-- `OrderGenerator._build_dependency_graph` (lines 100–168), as the
duplicate-free list of directed edges `u -> v` (`u` must be installed before
`v`). -/
def buildDependencyGraph (rules : List Rule)
    (componentsToOrder : List ComponentReference) :
    List (ComponentReference × ComponentReference) :=
  (getOrderRules rules).foldl (ordRuleEdges componentsToOrder)
    ((getDependencyRules rules).foldl (depRuleEdges componentsToOrder) [])

theorem mem_getDependencyRules {rules : List Rule} {d : DependencyRule} :
    d ∈ getDependencyRules rules ↔ Rule.dep d ∈ rules := by
  unfold getDependencyRules
  rw [List.mem_filterMap]
  constructor
  · rintro ⟨a, ha, hfa⟩
    cases a with
    | dep d' => simp only [Option.some.injEq] at hfa; exact hfa ▸ ha
    | ord o => simp at hfa
  · intro h
    exact ⟨Rule.dep d, h, rfl⟩

theorem mem_getOrderRules {rules : List Rule} {o : OrderRule} :
    o ∈ getOrderRules rules ↔ Rule.ord o ∈ rules := by
  unfold getOrderRules
  rw [List.mem_filterMap]
  constructor
  · rintro ⟨a, ha, hfa⟩
    cases a with
    | dep d => simp at hfa
    | ord o' => simp only [Option.some.injEq] at hfa; exact hfa ▸ ha
  · intro h
    exact ⟨Rule.ord o, h, rfl⟩

theorem mem_foldl_addEdge_src {componentsToOrder : List ComponentReference}
    {t : ComponentReference} {ss : List ComponentReference}
    {es : List (ComponentReference × ComponentReference)}
    {q : ComponentReference × ComponentReference} :
    q ∈ ss.foldl (fun es' s => addEdge componentsToOrder es' t s) es ↔
      q ∈ es ∨ ∃ s ∈ ss, q = (t, s) ∧ t ≠ s ∧ t ∈ componentsToOrder ∧
        s ∈ componentsToOrder := by
  exact mem_foldl_of_mem_step _
    (fun s q => q = (t, s) ∧ t ≠ s ∧ t ∈ componentsToOrder ∧ s ∈ componentsToOrder)
    (fun _ _ _ => mem_addEdge) ss es q

theorem mem_depRuleEdges {componentsToOrder : List ComponentReference}
    {es : List (ComponentReference × ComponentReference)} {rule : DependencyRule}
    {q : ComponentReference × ComponentReference} :
    q ∈ depRuleEdges componentsToOrder es rule ↔
      q ∈ es ∨ (rule.implicit_order = true ∧ q.1 ≠ q.2 ∧
        q.1 ∈ componentsToOrder ∧ q.2 ∈ componentsToOrder ∧
        q.1 ∈ rule.targets ∧ q.2 ∈ rule.sources) := by
  unfold depRuleEdges
  cases himp : rule.implicit_order with
  | false =>
    simp only [himp, Bool.not_false, if_pos]
    constructor
    · exact Or.inl
    · rintro (h | ⟨h, _⟩)
      · exact h
      · exact absurd h (by simp)
  | true =>
    simp only [himp, Bool.not_true, Bool.false_eq_true, if_false]
    have memCond : ∀ (l : List ComponentReference) (p : List ComponentReference)
        (x : ComponentReference), x ∈ l.filter (fun ref => decide (ref ∈ p)) ↔
          x ∈ l ∧ x ∈ p := by
      intro l p x
      rw [List.mem_filter]
      simp
    split
    · rename_i hse
      rw [List.isEmpty_iff] at hse
      constructor
      · exact Or.inl
      · rintro (h | ⟨_, _, _, h2n, _, h2s⟩)
        · exact h
        · have : q.2 ∈ componentsToOrder.filter (fun ref => decide (ref ∈ rule.sources)) :=
            (memCond _ _ _).mpr ⟨h2n, h2s⟩
          rw [hse] at this
          exact absurd this (List.not_mem_nil _)
    · rename_i hse
      split
      · rename_i hte
        rw [List.isEmpty_iff] at hte
        constructor
        · exact Or.inl
        · rintro (h | ⟨_, _, h1n, _, h1t, _⟩)
          · exact h
          · have : q.1 ∈ componentsToOrder.filter (fun ref => decide (ref ∈ rule.targets)) :=
              (memCond _ _ _).mpr ⟨h1n, h1t⟩
            rw [hte] at this
            exact absurd this (List.not_mem_nil _)
      · rw [mem_foldl_of_mem_step _
            (fun t q => ∃ s ∈ componentsToOrder.filter (fun ref => decide (ref ∈ rule.sources)),
              q = (t, s) ∧ t ≠ s ∧ t ∈ componentsToOrder ∧ s ∈ componentsToOrder)
            (fun _ _ _ => mem_foldl_addEdge_src)]
        constructor
        · rintro (h | ⟨t, ht, s, hs, rfl, hne, htn, hsn⟩)
          · exact Or.inl h
          · rcases (memCond _ _ _).mp ht with ⟨_, htt⟩
            rcases (memCond _ _ _).mp hs with ⟨_, hss⟩
            exact Or.inr ⟨trivial, hne, htn, hsn, htt, hss⟩
        · rintro (h | ⟨_, hne, h1n, h2n, h1t, h2s⟩)
          · exact Or.inl h
          · refine Or.inr ⟨q.1, (memCond _ _ _).mpr ⟨h1n, h1t⟩,
              q.2, (memCond _ _ _).mpr ⟨h2n, h2s⟩, ?_, hne, h1n, h2n⟩
            rfl

theorem mem_ordRuleEdges {componentsToOrder : List ComponentReference}
    {es : List (ComponentReference × ComponentReference)} {rule : OrderRule}
    {q : ComponentReference × ComponentReference} :
    q ∈ ordRuleEdges componentsToOrder es rule ↔
      q ∈ es ∨ (q.1 ≠ q.2 ∧ q.1 ∈ componentsToOrder ∧ q.2 ∈ componentsToOrder ∧
        ((rule.order_direction = .BEFORE ∧ q.1 ∈ rule.sources ∧ q.2 ∈ rule.targets) ∨
         (rule.order_direction = .AFTER ∧ q.1 ∈ rule.targets ∧ q.2 ∈ rule.sources))) := by
  have memCond : ∀ (l : List ComponentReference) (p : List ComponentReference)
      (x : ComponentReference), x ∈ l.filter (fun ref => decide (ref ∈ p)) ↔
        x ∈ l ∧ x ∈ p := by
    intro l p x
    rw [List.mem_filter]
    simp
  unfold ordRuleEdges
  by_cases hse :
      (componentsToOrder.filter (fun ref => decide (ref ∈ rule.sources))).isEmpty = true
  · rw [if_pos hse]
    rw [List.isEmpty_iff] at hse
    constructor
    · exact Or.inl
    · rintro (h | ⟨_, h1n, h2n, ⟨_, h1s, _⟩ | ⟨_, _, h2s⟩⟩)
      · exact h
      · have : q.1 ∈ componentsToOrder.filter (fun ref => decide (ref ∈ rule.sources)) :=
          (memCond _ _ _).mpr ⟨h1n, h1s⟩
        rw [hse] at this
        exact absurd this (List.not_mem_nil _)
      · have : q.2 ∈ componentsToOrder.filter (fun ref => decide (ref ∈ rule.sources)) :=
          (memCond _ _ _).mpr ⟨h2n, h2s⟩
        rw [hse] at this
        exact absurd this (List.not_mem_nil _)
  · rw [if_neg hse]
    by_cases hte :
        (componentsToOrder.filter (fun ref => decide (ref ∈ rule.targets))).isEmpty = true
    · rw [if_pos hte]
      rw [List.isEmpty_iff] at hte
      constructor
      · exact Or.inl
      · rintro (h | ⟨_, h1n, h2n, ⟨_, _, h2t⟩ | ⟨_, h1t, _⟩⟩)
        · exact h
        · have : q.2 ∈ componentsToOrder.filter (fun ref => decide (ref ∈ rule.targets)) :=
            (memCond _ _ _).mpr ⟨h2n, h2t⟩
          rw [hte] at this
          exact absurd this (List.not_mem_nil _)
        · have : q.1 ∈ componentsToOrder.filter (fun ref => decide (ref ∈ rule.targets)) :=
            (memCond _ _ _).mpr ⟨h1n, h1t⟩
          rw [hte] at this
          exact absurd this (List.not_mem_nil _)
    · rw [if_neg hte]
      cases hdir : rule.order_direction with
      | BEFORE =>
        rw [mem_foldl_of_mem_step _
            (fun s q => ∃ t ∈ componentsToOrder.filter (fun ref => decide (ref ∈ rule.targets)),
              q = (s, t) ∧ s ≠ t ∧ s ∈ componentsToOrder ∧ t ∈ componentsToOrder)
            (fun es' s q' => by
              simp only [hdir]
              exact mem_foldl_of_mem_step _
                (fun t q => q = (s, t) ∧ s ≠ t ∧ s ∈ componentsToOrder ∧
                  t ∈ componentsToOrder)
                (fun _ _ _ => mem_addEdge) _ es' q')]
        constructor
        · rintro (h | ⟨s, hs, t, ht, rfl, hne, hsn, htn⟩)
          · exact Or.inl h
          · rcases (memCond _ _ _).mp hs with ⟨_, hss⟩
            rcases (memCond _ _ _).mp ht with ⟨_, htt⟩
            exact Or.inr ⟨hne, hsn, htn, Or.inl ⟨rfl, hss, htt⟩⟩
        · rintro (h | ⟨hne, h1n, h2n, ⟨_, h1s, h2t⟩ | ⟨hAfter, _, _⟩⟩)
          · exact Or.inl h
          · refine Or.inr ⟨q.1, (memCond _ _ _).mpr ⟨h1n, h1s⟩,
              q.2, (memCond _ _ _).mpr ⟨h2n, h2t⟩, ?_, hne, h1n, h2n⟩
            rfl
          · exact absurd hAfter (by simp)
      | AFTER =>
        rw [mem_foldl_of_mem_step _
            (fun s q => ∃ t ∈ componentsToOrder.filter (fun ref => decide (ref ∈ rule.targets)),
              q = (t, s) ∧ t ≠ s ∧ t ∈ componentsToOrder ∧ s ∈ componentsToOrder)
            (fun es' s q' => by
              simp only [hdir]
              exact mem_foldl_of_mem_step _
                (fun t q => q = (t, s) ∧ t ≠ s ∧ t ∈ componentsToOrder ∧
                  s ∈ componentsToOrder)
                (fun _ _ _ => mem_addEdge) _ es' q')]
        constructor
        · rintro (h | ⟨s, hs, t, ht, rfl, hne, htn, hsn⟩)
          · exact Or.inl h
          · rcases (memCond _ _ _).mp hs with ⟨_, hss⟩
            rcases (memCond _ _ _).mp ht with ⟨_, htt⟩
            exact Or.inr ⟨hne, htn, hsn, Or.inr ⟨rfl, htt, hss⟩⟩
        · rintro (h | ⟨hne, h1n, h2n, ⟨hBefore, _, _⟩ | ⟨_, h1t, h2s⟩⟩)
          · exact Or.inl h
          · exact absurd hBefore (by simp)
          · refine Or.inr ⟨q.2, (memCond _ _ _).mpr ⟨h2n, h2s⟩,
              q.1, (memCond _ _ _).mpr ⟨h1n, h1t⟩, ?_, hne, h1n, h2n⟩
            rfl

/-- The intended edge relation of step 4 of `generate`: the pairs the rules
demand between members of the working node set. -/
def ruleEdge (rules : List Rule) (q : ComponentReference × ComponentReference) : Prop :=
  (∃ d, Rule.dep d ∈ rules ∧ d.implicit_order = true ∧
    q.1 ∈ d.targets ∧ q.2 ∈ d.sources) ∨
  (∃ o, Rule.ord o ∈ rules ∧
    ((o.order_direction = .BEFORE ∧ q.1 ∈ o.sources ∧ q.2 ∈ o.targets) ∨
     (o.order_direction = .AFTER ∧ q.1 ∈ o.targets ∧ q.2 ∈ o.sources)))

/-- Membership in the built graph is exactly the rule-demanded edge relation
restricted to distinct members of the working node set. -/
theorem mem_buildDependencyGraph {rules : List Rule}
    {componentsToOrder : List ComponentReference}
    {q : ComponentReference × ComponentReference} :
    q ∈ buildDependencyGraph rules componentsToOrder ↔
      q.1 ≠ q.2 ∧ q.1 ∈ componentsToOrder ∧ q.2 ∈ componentsToOrder ∧
        ruleEdge rules q := by
  unfold buildDependencyGraph
  rw [mem_foldl_of_mem_step _
      (fun (rule : OrderRule) q => q.1 ≠ q.2 ∧ q.1 ∈ componentsToOrder ∧
        q.2 ∈ componentsToOrder ∧
        ((rule.order_direction = .BEFORE ∧ q.1 ∈ rule.sources ∧ q.2 ∈ rule.targets) ∨
         (rule.order_direction = .AFTER ∧ q.1 ∈ rule.targets ∧ q.2 ∈ rule.sources)))
      (fun _ _ _ => mem_ordRuleEdges)]
  rw [mem_foldl_of_mem_step _
      (fun (rule : DependencyRule) q => rule.implicit_order = true ∧ q.1 ≠ q.2 ∧
        q.1 ∈ componentsToOrder ∧ q.2 ∈ componentsToOrder ∧
        q.1 ∈ rule.targets ∧ q.2 ∈ rule.sources)
      (fun _ _ _ => mem_depRuleEdges)]
  constructor
  · rintro ((h | ⟨d, hd, himp, hne, h1n, h2n, h1t, h2s⟩) | ⟨o, ho, hne, h1n, h2n, hcase⟩)
    · exact absurd h (List.not_mem_nil q)
    · exact ⟨hne, h1n, h2n, Or.inl ⟨d, mem_getDependencyRules.mp hd, himp, h1t, h2s⟩⟩
    · exact ⟨hne, h1n, h2n, Or.inr ⟨o, mem_getOrderRules.mp ho, hcase⟩⟩
  · rintro ⟨hne, h1n, h2n, ⟨d, hd, himp, h1t, h2s⟩ | ⟨o, ho, hcase⟩⟩
    · exact Or.inl (Or.inr ⟨d, mem_getDependencyRules.mpr hd, himp, hne, h1n, h2n, h1t, h2s⟩)
    · exact Or.inr ⟨o, mem_getOrderRules.mpr ho, hne, h1n, h2n, hcase⟩

theorem depRuleEdges_nodup {componentsToOrder : List ComponentReference}
    {es : List (ComponentReference × ComponentReference)} {rule : DependencyRule}
    (h : es.Nodup) : (depRuleEdges componentsToOrder es rule).Nodup := by
  unfold depRuleEdges
  split
  · exact h
  · split
    · exact h
    · split
      · exact h
      · refine foldl_preserves List.Nodup _ ?_ _ _ h
        intro b t hb
        refine foldl_preserves List.Nodup _ ?_ _ _ hb
        intro b' s hb'
        exact addEdge_nodup hb'

theorem ordRuleEdges_nodup {componentsToOrder : List ComponentReference}
    {es : List (ComponentReference × ComponentReference)} {rule : OrderRule}
    (h : es.Nodup) : (ordRuleEdges componentsToOrder es rule).Nodup := by
  unfold ordRuleEdges
  split
  · exact h
  · split
    · exact h
    · refine foldl_preserves List.Nodup _ ?_ _ _ h
      intro b s hb
      refine foldl_preserves List.Nodup _ ?_ _ _ hb
      intro b' t hb'
      cases rule.order_direction
      · exact addEdge_nodup hb'
      · exact addEdge_nodup hb'

theorem buildDependencyGraph_nodup {rules : List Rule}
    {componentsToOrder : List ComponentReference} :
    (buildDependencyGraph rules componentsToOrder).Nodup := by
  unfold buildDependencyGraph
  refine foldl_preserves List.Nodup _ (fun b a hb => ordRuleEdges_nodup hb) _ _ ?_
  refine foldl_preserves List.Nodup _ (fun b a hb => depRuleEdges_nodup hb) _ _ List.nodup_nil

theorem buildDependencyGraph_mem_nodes {rules : List Rule}
    {componentsToOrder : List ComponentReference}
    {q : ComponentReference × ComponentReference}
    (h : q ∈ buildDependencyGraph rules componentsToOrder) :
    q.1 ∈ componentsToOrder ∧ q.2 ∈ componentsToOrder := by
  rcases mem_buildDependencyGraph.mp h with ⟨_, h1, h2, _⟩
  exact ⟨h1, h2⟩

/-- The edge list depends only on the rule set and node set, not on the order
in which rules are enumerated or nodes were accumulated. -/
theorem buildDependencyGraph_perm {rules₁ rules₂ : List Rule}
    {nodes₁ nodes₂ : List ComponentReference}
    (hr : rules₁.Perm rules₂) (hn : nodes₁.Perm nodes₂) :
    (buildDependencyGraph rules₁ nodes₁).Perm (buildDependencyGraph rules₂ nodes₂) := by
  rw [List.perm_ext_iff_of_nodup buildDependencyGraph_nodup buildDependencyGraph_nodup]
  intro q
  rw [mem_buildDependencyGraph, mem_buildDependencyGraph]
  constructor
  · rintro ⟨hne, h1, h2, hre⟩
    refine ⟨hne, hn.mem_iff.mp h1, hn.mem_iff.mp h2, ?_⟩
    rcases hre with ⟨d, hd, rest⟩ | ⟨o, ho, rest⟩
    · exact Or.inl ⟨d, hr.mem_iff.mp hd, rest⟩
    · exact Or.inr ⟨o, hr.mem_iff.mp ho, rest⟩
  · rintro ⟨hne, h1, h2, hre⟩
    refine ⟨hne, hn.mem_iff.mpr h1, hn.mem_iff.mpr h2, ?_⟩
    rcases hre with ⟨d, hd, rest⟩ | ⟨o, ho, rest⟩
    · exact Or.inl ⟨d, hr.mem_iff.mpr hd, rest⟩
    · exact Or.inr ⟨o, hr.mem_iff.mpr ho, rest⟩

/-- Successor view of the edge list: `graph.get(current, [])` in the source
(`graph[u]` is the set of nodes that depend on `u`). -/
def succs (edges : List (ComponentReference × ComponentReference))
    (u : ComponentReference) : List ComponentReference :=
  (edges.filter (fun e => decide (e.1 = u))).map (fun e => e.2)

/-- In-degree view of the edge list: `in_degree[v]`, the number of distinct
dependencies of `v` (the source maintains this count incrementally in
`add_edge`; over the duplicate-free edge list the two coincide). -/
def inDegree (edges : List (ComponentReference × ComponentReference))
    (v : ComponentReference) : Nat :=
  (edges.filter (fun e => decide (e.2 = v))).length

/-- One iteration of the inner `for neighbor in sorted(...)` loop (lines
204–209): decrement the neighbor's count (`in_degree_copy[neighbor] -= 1`) and
append it to the deque exactly when the count reaches zero.  The count is an
`Int`, as in Python. -/
def processNeighbor (s : List ComponentReference × (ComponentReference → Int))
    (n : ComponentReference) : List ComponentReference × (ComponentReference → Int) :=
  if s.2 n - 1 = 0 then (s.1 ++ [n], fun x => if x = n then s.2 x - 1 else s.2 x)
  else (s.1, fun x => if x = n then s.2 x - 1 else s.2 x)

/-- The `while zero_degree:` loop of `_topological_sort` (lines 199–209).  The
deque is FIFO: `popleft` from the front, newly ready successors are appended
at the back (in ascending key order among the successors of the popped node).
`fuel` is an upper bound on the number of iterations; `topologicalSort` below
passes a provably sufficient bound, so the exhaustion branch is never taken
there. -/
def kahnLoop (edges : List (ComponentReference × ComponentReference)) :
    Nat → List ComponentReference → (ComponentReference → Int) →
      List ComponentReference → List ComponentReference
  | _, [], _, result => result
  | 0, _ :: _, _, result => result
  | fuel + 1, current :: rest, indeg, result =>
    let s := (sortCR (succs edges current)).foldl processNeighbor (rest, indeg)
    kahnLoop edges fuel s.1 s.2 (result ++ [current])

/-- Sum of the (clamped) counts over a list of nodes. -/
def sumToNat (l : List ComponentReference) (d : ComponentReference → Int) : Nat :=
  (l.map (fun v => (d v).toNat)).sum

/-- Iteration bound for `kahnLoop`: queue length plus the remaining positive
in-degree mass over all edge targets.  Every loop iteration strictly
decreases it. -/
def kahnFuel (edges : List (ComponentReference × ComponentReference))
    (q : List ComponentReference) (d : ComponentReference → Int) : Nat :=
  q.length + sumToNat ((edges.map (fun e => e.2)).dedup) d

/-- `OrderGenerator._topological_sort` (lines 170–217): Kahn's algorithm with
the initial ready deque sorted by `(mod_id, comp_key)`, followed by the cycle
fallback that appends the unprocessed remainder in ascending key order. -/
def topologicalSort (edges : List (ComponentReference × ComponentReference))
    (componentsToOrder : List ComponentReference) : List ComponentReference :=
  let indeg : ComponentReference → Int := fun v => (inDegree edges v : Int)
  let zero_degree :=
    sortCR (componentsToOrder.filter (fun r => decide (inDegree edges r = 0)))
  let result := kahnLoop edges (kahnFuel edges zero_degree indeg) zero_degree indeg []
  if result.length ≠ componentsToOrder.length then
    result ++ sortCR (componentsToOrder.filter (fun r => decide (r ∉ result)))
  else result

theorem mem_succs {edges : List (ComponentReference × ComponentReference)}
    {u v : ComponentReference} : v ∈ succs edges u ↔ (u, v) ∈ edges := by
  unfold succs
  rw [List.mem_map]
  constructor
  · rintro ⟨e, he, rfl⟩
    rcases List.mem_filter.mp he with ⟨hmem, hfst⟩
    have : e.1 = u := by simpa using hfst
    rwa [← this]
  · intro h
    exact ⟨(u, v), List.mem_filter.mpr ⟨h, by simp⟩, rfl⟩

theorem succs_nodup {edges : List (ComponentReference × ComponentReference)}
    {u : ComponentReference} (hE : edges.Nodup) : (succs edges u).Nodup := by
  unfold succs
  refine List.Nodup.map_on ?_ (hE.filter _)
  intro x hx y hy hxy
  rcases List.mem_filter.mp hx with ⟨_, hx1⟩
  rcases List.mem_filter.mp hy with ⟨_, hy1⟩
  have hx1' : x.1 = u := by simpa using hx1
  have hy1' : y.1 = u := by simpa using hy1
  cases x; cases y
  simp only at hx1' hy1' hxy
  simp [hx1', hy1', hxy]

/-- Effect of an entire neighbor pass: every neighbor's count drops by one,
and exactly the neighbors whose count was one get appended, in order. -/
theorem processNeighbors_spec (ns : List ComponentReference) (hns : ns.Nodup) :
    ∀ (q : List ComponentReference) (d : ComponentReference → Int),
      (ns.foldl processNeighbor (q, d)).1 =
          q ++ ns.filter (fun n => decide (d n = 1)) ∧
        (ns.foldl processNeighbor (q, d)).2 =
          fun v => if v ∈ ns then d v - 1 else d v := by
  induction ns with
  | nil =>
    intro q d
    constructor
    · simp
    · funext v; simp
  | cons n ns ih =>
    intro q d
    rcases List.nodup_cons.mp hns with ⟨hn, hns'⟩
    have hpn : processNeighbor (q, d) n =
        ((if d n - 1 = 0 then q ++ [n] else q),
          fun x => if x = n then d x - 1 else d x) := by
      unfold processNeighbor
      by_cases h0 : d n - 1 = 0
      · rw [if_pos h0, if_pos h0]
      · rw [if_neg h0, if_neg h0]
    have dcongr : ∀ x ∈ ns, (fun x => if x = n then d x - 1 else d x) x = d x := by
      intro x hx
      have : x ≠ n := fun h => hn (h ▸ hx)
      simp [this]
    rw [List.foldl_cons, hpn]
    rcases ih hns' (if d n - 1 = 0 then q ++ [n] else q)
        (fun x => if x = n then d x - 1 else d x) with ⟨h1, h2⟩
    constructor
    · rw [h1]
      have hfilter : ns.filter (fun m => decide ((fun x => if x = n then d x - 1 else d x) m = 1)) =
          ns.filter (fun m => decide (d m = 1)) := by
        apply List.filter_congr
        intro x hx
        rw [dcongr x hx]
      rw [hfilter]
      by_cases h0 : d n - 1 = 0
      · have hdn : d n = 1 := by omega
        rw [if_pos h0, List.filter_cons_of_pos (by simpa using hdn)]
        simp
      · have hdn : ¬ d n = 1 := by omega
        rw [if_neg h0, List.filter_cons_of_neg (by simpa using hdn)]
    · rw [h2]
      funext v
      by_cases hv : v ∈ ns
      · have hvn : v ≠ n := fun h => hn (h ▸ hv)
        simp [hv, hvn, List.mem_cons]
      · by_cases hvn : v = n
        · subst hvn
          simp [hv, hn]
        · simp [hv, hvn, List.mem_cons]

theorem sum_map_le {l : List ComponentReference} {f g : ComponentReference → Nat}
    (h : ∀ v ∈ l, f v ≤ g v) : (l.map f).sum ≤ (l.map g).sum := by
  induction l with
  | nil => simp
  | cons x xs ih =>
    simp only [List.map_cons, List.sum_cons]
    exact Nat.add_le_add (h x (List.mem_cons_self x xs))
      (ih (fun v hv => h v (List.mem_cons_of_mem x hv)))

theorem sum_map_add (l : List ComponentReference) (f g : ComponentReference → Nat) :
    (l.map (fun v => f v + g v)).sum = (l.map f).sum + (l.map g).sum := by
  induction l with
  | nil => simp
  | cons x xs ih =>
    simp only [List.map_cons, List.sum_cons, ih]
    omega

theorem sum_map_indicator (l S : List ComponentReference) :
    (l.map (fun v => if v ∈ S then 1 else 0)).sum =
      (l.filter (fun v => decide (v ∈ S))).length := by
  induction l with
  | nil => simp
  | cons x xs ih =>
    by_cases hx : x ∈ S
    · rw [List.filter_cons_of_pos (by simpa using hx)]
      simp only [List.map_cons, List.sum_cons, if_pos hx, List.length_cons, ih]
      omega
    · rw [List.filter_cons_of_neg (by simpa using hx)]
      simp only [List.map_cons, List.sum_cons, if_neg hx, ih]
      omega

/-- Budget lemma: if `f` is pointwise below `g` on `T` and strictly below on
the duplicate-free sublist `S`, the sum over `T` of `f` plus `|S|` stays below
the sum of `g`. -/
theorem sumToNat_budget {T S : List ComponentReference} {f g : ComponentReference → Int}
    (hT : T.Nodup) (hS : S.Nodup) (hsub : ∀ v ∈ S, v ∈ T)
    (hle : ∀ v ∈ T, (f v).toNat ≤ (g v).toNat)
    (hlt : ∀ v ∈ S, (f v).toNat + 1 ≤ (g v).toNat) :
    sumToNat T f + S.length ≤ sumToNat T g := by
  have hfilter : (T.filter (fun v => decide (v ∈ S))).length = S.length := by
    have hperm : (T.filter (fun v => decide (v ∈ S))).Perm S := by
      rw [List.perm_ext_iff_of_nodup (hT.filter _) hS]
      intro a
      rw [List.mem_filter]
      constructor
      · rintro ⟨_, ha⟩
        simpa using ha
      · intro ha
        exact ⟨hsub a ha, by simpa using ha⟩
    exact hperm.length_eq
  have key : (T.map (fun v => (f v).toNat + (if v ∈ S then 1 else 0))).sum ≤
      (T.map (fun v => (g v).toNat)).sum := by
    apply sum_map_le
    intro v hv
    by_cases hvS : v ∈ S
    · rw [if_pos hvS]; exact hlt v hvS
    · rw [if_neg hvS]; simpa using hle v hv
  rw [sum_map_add, sum_map_indicator, hfilter] at key
  exact key

/-- Number of edges into `v` whose source has not yet been emitted into
`result`; the running value of `in_degree_copy[v]` in the source. -/
def remInDegree (edges : List (ComponentReference × ComponentReference))
    (result : List ComponentReference) (v : ComponentReference) : Nat :=
  (edges.filter (fun e => decide (e.2 = v ∧ e.1 ∉ result))).length

theorem remInDegree_nil (edges : List (ComponentReference × ComponentReference))
    (v : ComponentReference) : remInDegree edges [] v = inDegree edges v := by
  unfold remInDegree inDegree
  apply congrArg List.length
  apply List.filter_congr
  intro e _
  simp

theorem remInDegree_pos {edges : List (ComponentReference × ComponentReference)}
    {result : List ComponentReference} {current v : ComponentReference}
    (hmem : (current, v) ∈ edges) (hcur : current ∉ result) :
    1 ≤ remInDegree edges result v := by
  have : (current, v) ∈ edges.filter (fun e => decide (e.2 = v ∧ e.1 ∉ result)) :=
    List.mem_filter.mpr ⟨hmem, by simp [hcur]⟩
  exact List.length_pos.mpr (List.ne_nil_of_mem this)

theorem remInDegree_snoc {edges : List (ComponentReference × ComponentReference)}
    (hE : edges.Nodup) {result : List ComponentReference} {current : ComponentReference}
    (hcur : current ∉ result) (v : ComponentReference) :
    (remInDegree edges (result ++ [current]) v : Int) =
      (remInDegree edges result v : Int) - (if (current, v) ∈ edges then 1 else 0) := by
  induction edges with
  | nil => simp [remInDegree]
  | cons e es ih =>
    rcases List.nodup_cons.mp hE with ⟨he, hes⟩
    have ihe := ih hes
    unfold remInDegree at ihe ⊢
    rw [List.filter_cons, List.filter_cons]
    simp only [decide_eq_true_eq]
    by_cases hecv : e = (current, v)
    · subst hecv
      rw [if_pos (List.mem_cons_self _ _)]
      rw [if_neg (by simp :
        ¬(((current, v) : ComponentReference × ComponentReference).2 = v ∧
          ((current, v) : ComponentReference × ComponentReference).1 ∉ result ++ [current]))]
      rw [if_pos (⟨rfl, hcur⟩ :
        (((current, v) : ComponentReference × ComponentReference).2 = v ∧
          ((current, v) : ComponentReference × ComponentReference).1 ∉ result))]
      rw [if_neg he] at ihe
      simp only [List.length_cons]
      push_cast
      omega
    · have hAB : (e.2 = v ∧ e.1 ∉ result ++ [current]) ↔ (e.2 = v ∧ e.1 ∉ result) := by
        constructor
        · rintro ⟨h2, h1⟩
          exact ⟨h2, fun hin => h1 (List.mem_append.mpr (Or.inl hin))⟩
        · rintro ⟨h2, h1⟩
          refine ⟨h2, fun hin => ?_⟩
          rcases List.mem_append.mp hin with h | h
          · exact h1 h
          · have h1c : e.1 = current := by simpa using h
            apply hecv
            cases e
            simp only at h2 h1c
            simp [h2, h1c]
      by_cases hces : (current, v) ∈ es
      · rw [if_pos hces] at ihe
        rw [if_pos (List.mem_cons_of_mem e hces)]
        by_cases hB : e.2 = v ∧ e.1 ∉ result
        · rw [if_pos (hAB.mpr hB), if_pos hB]
          simp only [List.length_cons]
          push_cast
          omega
        · rw [if_neg (fun hA => hB (hAB.mp hA)), if_neg hB]
          omega
      · rw [if_neg hces] at ihe
        rw [if_neg (show ¬((current, v) ∈ e :: es) from fun h => by
          rcases List.mem_cons.mp h with h' | h'
          · exact hecv h'.symm
          · exact hces h')]
        by_cases hB : e.2 = v ∧ e.1 ∉ result
        · rw [if_pos (hAB.mpr hB), if_pos hB]
          simp only [List.length_cons]
          push_cast
          omega
        · rw [if_neg (fun hA => hB (hAB.mp hA)), if_neg hB]
          omega

/-- Loop invariant of the Kahn `while` loop: the emitted result and the deque
are disjoint and duplicate-free subsets of the node set, the counts agree
with the remaining in-degrees, deque and result members have count zero, and
every zero-count node has been emitted or queued. -/
structure KahnInv (edges : List (ComponentReference × ComponentReference))
    (nodes queue result : List ComponentReference)
    (indeg : ComponentReference → Int) : Prop where
  nodupAll : (result ++ queue).Nodup
  resNodes : ∀ v ∈ result, v ∈ nodes
  queueNodes : ∀ v ∈ queue, v ∈ nodes
  count : ∀ v, indeg v = (remInDegree edges result v : Int)
  queueZero : ∀ v ∈ queue, indeg v = 0
  resZero : ∀ v ∈ result, indeg v = 0
  zeroCovered : ∀ v ∈ nodes, indeg v = 0 → v ∈ result ∨ v ∈ queue

/-- Running the loop from any state satisfying the invariant with sufficient
fuel yields a duplicate-free list of nodes. -/
theorem kahnLoop_invariant {edges : List (ComponentReference × ComponentReference)}
    {nodes : List ComponentReference}
    (hE : edges.Nodup) (hEnd : ∀ e ∈ edges, e.1 ∈ nodes ∧ e.2 ∈ nodes) :
    ∀ (fuel : Nat) (queue : List ComponentReference) (indeg : ComponentReference → Int)
      (result : List ComponentReference),
      KahnInv edges nodes queue result indeg →
      kahnFuel edges queue indeg ≤ fuel →
      (kahnLoop edges fuel queue indeg result).Nodup ∧
        ∀ v ∈ kahnLoop edges fuel queue indeg result, v ∈ nodes := by
  intro fuel
  induction fuel with
  | zero =>
    intro queue indeg result hinv hfuel
    have hq : queue = [] := by
      cases queue with
      | nil => rfl
      | cons a l =>
        exfalso
        unfold kahnFuel at hfuel
        simp at hfuel
    subst hq
    simp only [kahnLoop]
    refine ⟨by simpa using hinv.nodupAll, ?_⟩
    intro v hv
    exact hinv.resNodes v hv
  | succ fuel ih =>
    intro queue indeg result hinv hfuel
    cases queue with
    | nil =>
      simp only [kahnLoop]
      refine ⟨by simpa using hinv.nodupAll, ?_⟩
      intro v hv
      exact hinv.resNodes v hv
    | cons current rest =>
      have hnsN : (sortCR (succs edges current)).Nodup := sortCR_nodup (succs_nodup hE)
      rcases processNeighbors_spec (sortCR (succs edges current)) hnsN rest indeg
        with ⟨hq', hd'⟩
      have hunfold : kahnLoop edges (fuel + 1) (current :: rest) indeg result =
          kahnLoop edges fuel
            ((sortCR (succs edges current)).foldl processNeighbor (rest, indeg)).1
            ((sortCR (succs edges current)).foldl processNeighbor (rest, indeg)).2
            (result ++ [current]) := rfl
      rw [hunfold, hq', hd']
      have hmem_ns : ∀ v, v ∈ sortCR (succs edges current) ↔ (current, v) ∈ edges :=
        fun v => mem_sortCR.trans mem_succs
      have hAll := hinv.nodupAll
      rw [List.nodup_append] at hAll
      rcases hAll with ⟨hresN, hqN, hdisj⟩
      rcases List.nodup_cons.mp hqN with ⟨hcur_rest, hrestN⟩
      have hcurNotRes : current ∉ result := fun h => hdisj h (List.mem_cons_self _ _)
      have hcur0 : indeg current = 0 := hinv.queueZero current (List.mem_cons_self _ _)
      have hzero_not_ns : ∀ v, indeg v = 0 → v ∉ sortCR (succs edges current) := by
        intro v hv0 hvns
        have hcv : (current, v) ∈ edges := (hmem_ns v).mp hvns
        have h1 : 1 ≤ remInDegree edges result v := remInDegree_pos hcv hcurNotRes
        have h2 := hinv.count v
        omega
      have henq_mem : ∀ v ∈ (sortCR (succs edges current)).filter
          (fun n => decide (indeg n = 1)),
          v ∈ sortCR (succs edges current) ∧ indeg v = 1 := by
        intro v hv
        rcases List.mem_filter.mp hv with ⟨h1, h2⟩
        exact ⟨h1, by simpa using h2⟩
      have hinv' : KahnInv edges nodes
          (rest ++ (sortCR (succs edges current)).filter (fun n => decide (indeg n = 1)))
          (result ++ [current])
          (fun v => if v ∈ sortCR (succs edges current) then indeg v - 1 else indeg v) := by
        constructor
        · -- nodupAll
          have hassoc : (result ++ [current]) ++
              (rest ++ (sortCR (succs edges current)).filter (fun n => decide (indeg n = 1)))
              = (result ++ current :: rest) ++
                (sortCR (succs edges current)).filter (fun n => decide (indeg n = 1)) := by
            simp
          rw [hassoc, List.nodup_append]
          refine ⟨hinv.nodupAll, hnsN.filter _, ?_⟩
          intro x hx hxe
          rcases henq_mem x hxe with ⟨_, hx1⟩
          rcases List.mem_append.mp hx with hxr | hxq
          · have := hinv.resZero x hxr
            omega
          · have := hinv.queueZero x hxq
            omega
        · -- resNodes
          intro v hv
          rcases List.mem_append.mp hv with hvr | hvc
          · exact hinv.resNodes v hvr
          · have : v = current := by simpa using hvc
            exact this ▸ hinv.queueNodes current (List.mem_cons_self _ _)
        · -- queueNodes
          intro v hv
          rcases List.mem_append.mp hv with hvr | hve
          · exact hinv.queueNodes v (List.mem_cons_of_mem _ hvr)
          · rcases henq_mem v hve with ⟨hvns, _⟩
            exact (hEnd _ ((hmem_ns v).mp hvns)).2
        · -- count
          intro v
          rw [remInDegree_snoc hE hcurNotRes v]
          by_cases hv : v ∈ sortCR (succs edges current)
          · rw [if_pos hv, if_pos ((hmem_ns v).mp hv)]
            have := hinv.count v
            omega
          · rw [if_neg hv, if_neg (fun h => hv ((hmem_ns v).mpr h))]
            have := hinv.count v
            omega
        · -- queueZero
          intro v hv
          rcases List.mem_append.mp hv with hvr | hve
          · have h0 := hinv.queueZero v (List.mem_cons_of_mem _ hvr)
            rw [if_neg (hzero_not_ns v h0)]
            exact h0
          · rcases henq_mem v hve with ⟨hvns, hv1⟩
            rw [if_pos hvns]
            omega
        · -- resZero
          intro v hv
          rcases List.mem_append.mp hv with hvr | hvc
          · have h0 := hinv.resZero v hvr
            rw [if_neg (hzero_not_ns v h0)]
            exact h0
          · have hvcur : v = current := by simpa using hvc
            subst hvcur
            rw [if_neg (hzero_not_ns v hcur0)]
            exact hcur0
        · -- zeroCovered
          intro v hvnodes hv0
          by_cases hv : v ∈ sortCR (succs edges current)
          · rw [if_pos hv] at hv0
            have hv1 : indeg v = 1 := by omega
            exact Or.inr (List.mem_append.mpr (Or.inr
              (List.mem_filter.mpr ⟨hv, by simp [hv1]⟩)))
          · rw [if_neg hv] at hv0
            rcases hinv.zeroCovered v hvnodes hv0 with hvr | hvq
            · exact Or.inl (List.mem_append.mpr (Or.inl hvr))
            · rcases List.mem_cons.mp hvq with hvc | hvrest
              · exact Or.inl (List.mem_append.mpr (Or.inr (by simp [hvc])))
              · exact Or.inr (List.mem_append.mpr (Or.inl hvrest))
      have hfuel' : kahnFuel edges
          (rest ++ (sortCR (succs edges current)).filter (fun n => decide (indeg n = 1)))
          (fun v => if v ∈ sortCR (succs edges current) then indeg v - 1 else indeg v)
          ≤ fuel := by
        have hbudget : sumToNat ((edges.map (fun e => e.2)).dedup)
              (fun v => if v ∈ sortCR (succs edges current) then indeg v - 1 else indeg v)
            + ((sortCR (succs edges current)).filter
                (fun n => decide (indeg n = 1))).length
            ≤ sumToNat ((edges.map (fun e => e.2)).dedup) indeg := by
          apply sumToNat_budget (List.nodup_dedup _) (hnsN.filter _)
          · intro v hv
            rcases henq_mem v hv with ⟨hvns, _⟩
            have hcv : (current, v) ∈ edges := (hmem_ns v).mp hvns
            exact List.mem_dedup.mpr (List.mem_map.mpr ⟨(current, v), hcv, rfl⟩)
          · intro v _
            by_cases hv : v ∈ sortCR (succs edges current)
            · rw [if_pos hv]
              omega
            · rw [if_neg hv]
          · intro v hv
            rcases henq_mem v hv with ⟨hvns, hv1⟩
            rw [if_pos hvns]
            omega
        unfold kahnFuel at hfuel ⊢
        rw [List.length_append]
        simp only [List.length_cons] at hfuel
        omega
      exact ih _ _ _ hinv' hfuel'

/-- Behavior of the cycle-fallback postlude (lines 211–217) given any
duplicate-free partial result contained in the node set. -/
theorem fallback_spec {nodes r0 : List ComponentReference}
    (hN : nodes.Nodup) (hr0N : r0.Nodup) (hr0sub : ∀ v ∈ r0, v ∈ nodes) :
    (if r0.length ≠ nodes.length then
        r0 ++ sortCR (nodes.filter (fun r => decide (r ∉ r0)))
      else r0).Nodup ∧
    (∀ v, v ∈ (if r0.length ≠ nodes.length then
        r0 ++ sortCR (nodes.filter (fun r => decide (r ∉ r0)))
      else r0) ↔ v ∈ nodes) ∧
    (if r0.length ≠ nodes.length then
        r0 ++ sortCR (nodes.filter (fun r => decide (r ∉ r0)))
      else r0).length = nodes.length := by
  have hsplit : ∀ (l : List ComponentReference),
      (l.filter (fun r => decide (r ∉ r0))).length +
        (l.filter (fun r => decide (r ∈ r0))).length = l.length := by
    intro l
    induction l with
    | nil => simp
    | cons x xs ih =>
      rw [List.filter_cons, List.filter_cons]
      by_cases hx : x ∈ r0
      · rw [if_neg (by simp [hx]), if_pos (by simp [hx])]
        simp only [List.length_cons]
        omega
      · rw [if_pos (by simp [hx]), if_neg (by simp [hx])]
        simp only [List.length_cons]
        omega
  have hinlen : (nodes.filter (fun r => decide (r ∈ r0))).length = r0.length := by
    have hperm : (nodes.filter (fun r => decide (r ∈ r0))).Perm r0 := by
      rw [List.perm_ext_iff_of_nodup (hN.filter _) hr0N]
      intro a
      rw [List.mem_filter]
      constructor
      · rintro ⟨_, h⟩
        simpa using h
      · intro h
        exact ⟨hr0sub a h, by simpa using h⟩
    exact hperm.length_eq
  by_cases hlen : r0.length ≠ nodes.length
  · rw [if_pos hlen]
    have hnotlen := hsplit nodes
    refine ⟨?_, ?_, ?_⟩
    · rw [List.nodup_append]
      refine ⟨hr0N, sortCR_nodup (hN.filter _), ?_⟩
      intro x hx hx'
      rcases List.mem_filter.mp (mem_sortCR.mp hx') with ⟨_, hnot⟩
      have hnot' : x ∉ r0 := by simpa using hnot
      exact hnot' hx
    · intro v
      rw [List.mem_append, mem_sortCR, List.mem_filter]
      constructor
      · rintro (h | ⟨h, _⟩)
        · exact hr0sub v h
        · exact h
      · intro h
        by_cases hv : v ∈ r0
        · exact Or.inl hv
        · exact Or.inr ⟨h, by simpa using hv⟩
    · rw [List.length_append, (sortCR_perm _).length_eq]
      omega
  · rw [if_neg hlen]
    push_neg at hlen
    refine ⟨hr0N, ?_, hlen⟩
    have hsetEq : r0.toFinset = nodes.toFinset := by
      apply Finset.eq_of_subset_of_card_le
      · intro x hx
        exact List.mem_toFinset.mpr (hr0sub x (List.mem_toFinset.mp hx))
      · rw [List.toFinset_card_of_nodup hN, List.toFinset_card_of_nodup hr0N, hlen]
    intro v
    rw [← List.mem_toFinset, ← List.mem_toFinset (l := nodes), hsetEq]

/-- The topological sort always emits a permutation of the working node set:
duplicate-free, same membership, same length — also in the cyclic case, where
the remainder is appended by the fallback. -/
theorem topologicalSort_spec {edges : List (ComponentReference × ComponentReference)}
    {nodes : List ComponentReference}
    (hE : edges.Nodup) (hEnd : ∀ e ∈ edges, e.1 ∈ nodes ∧ e.2 ∈ nodes)
    (hN : nodes.Nodup) :
    (topologicalSort edges nodes).Nodup ∧
      (∀ v, v ∈ topologicalSort edges nodes ↔ v ∈ nodes) ∧
      (topologicalSort edges nodes).length = nodes.length := by
  have hinv0 : KahnInv edges nodes
      (sortCR (nodes.filter (fun r => decide (inDegree edges r = 0))))
      [] (fun v => (inDegree edges v : Int)) := by
    constructor
    · simpa using sortCR_nodup (hN.filter _)
    · intro v hv
      exact absurd hv (List.not_mem_nil v)
    · intro v hv
      exact List.mem_of_mem_filter (mem_sortCR.mp hv)
    · intro v
      rw [remInDegree_nil]
    · intro v hv
      rcases List.mem_filter.mp (mem_sortCR.mp hv) with ⟨_, h0⟩
      have h0' : inDegree edges v = 0 := by simpa using h0
      simp [h0']
    · intro v hv
      exact absurd hv (List.not_mem_nil v)
    · intro v hvn hv0
      refine Or.inr (mem_sortCR.mpr (List.mem_filter.mpr ⟨hvn, ?_⟩))
      have h0' : inDegree edges v = 0 := by exact_mod_cast hv0
      simp [h0']
  rcases kahnLoop_invariant hE hEnd
      (kahnFuel edges (sortCR (nodes.filter (fun r => decide (inDegree edges r = 0))))
        (fun v => (inDegree edges v : Int)))
      (sortCR (nodes.filter (fun r => decide (inDegree edges r = 0))))
      (fun v => (inDegree edges v : Int)) [] hinv0 le_rfl with ⟨hr0N, hr0sub⟩
  exact fallback_spec hN hr0N hr0sub

/-- The loop reads the edge list only through the sorted successor lists, so
any permutation of a duplicate-free edge list yields the same run. -/
theorem kahnLoop_congr {edges₁ edges₂ : List (ComponentReference × ComponentReference)}
    (hperm : edges₁.Perm edges₂) :
    ∀ (fuel : Nat) (q : List ComponentReference) (d : ComponentReference → Int)
      (r : List ComponentReference),
      kahnLoop edges₁ fuel q d r = kahnLoop edges₂ fuel q d r := by
  intro fuel
  induction fuel with
  | zero =>
    intro q d r
    cases q with
    | nil => rfl
    | cons a l => rfl
  | succ fuel ih =>
    intro q d r
    cases q with
    | nil => rfl
    | cons current rest =>
      have hsuccs : sortCR (succs edges₁ current) = sortCR (succs edges₂ current) := by
        apply sortCR_eq_of_perm
        unfold succs
        exact (hperm.filter _).map _
      have h1 : kahnLoop edges₁ (fuel + 1) (current :: rest) d r =
          kahnLoop edges₁ fuel
            ((sortCR (succs edges₁ current)).foldl processNeighbor (rest, d)).1
            ((sortCR (succs edges₁ current)).foldl processNeighbor (rest, d)).2
            (r ++ [current]) := rfl
      have h2 : kahnLoop edges₂ (fuel + 1) (current :: rest) d r =
          kahnLoop edges₂ fuel
            ((sortCR (succs edges₂ current)).foldl processNeighbor (rest, d)).1
            ((sortCR (succs edges₂ current)).foldl processNeighbor (rest, d)).2
            (r ++ [current]) := rfl
      rw [h1, h2, hsuccs, ih]

/-- The whole sort depends only on the edge set and the node list up to
permutation. -/
theorem topologicalSort_congr {edges₁ edges₂ : List (ComponentReference × ComponentReference)}
    {nodes₁ nodes₂ : List ComponentReference}
    (hpe : edges₁.Perm edges₂) (hpn : nodes₁.Perm nodes₂) :
    topologicalSort edges₁ nodes₁ = topologicalSort edges₂ nodes₂ := by
  have hindeg : ∀ v, inDegree edges₁ v = inDegree edges₂ v := by
    intro v
    unfold inDegree
    exact (hpe.filter _).length_eq
  have hind : (fun v => (inDegree edges₁ v : Int)) = fun v => (inDegree edges₂ v : Int) := by
    funext v
    rw [hindeg]
  have hzero : sortCR (nodes₁.filter (fun r => decide (inDegree edges₁ r = 0)))
      = sortCR (nodes₂.filter (fun r => decide (inDegree edges₂ r = 0))) := by
    have hp : (fun r => decide (inDegree edges₁ r = 0))
        = fun r => decide (inDegree edges₂ r = 0) := by
      funext r
      rw [hindeg]
    rw [hp]
    exact sortCR_eq_of_perm (hpn.filter _)
  have hfuel : ∀ (q : List ComponentReference) (d : ComponentReference → Int),
      kahnFuel edges₁ q d = kahnFuel edges₂ q d := by
    intro q d
    unfold kahnFuel sumToNat
    exact congrArg (q.length + ·) (List.Perm.sum_eq (((hpe.map _).dedup).map _))
  have h1 : topologicalSort edges₁ nodes₁ =
      (if (kahnLoop edges₁
            (kahnFuel edges₁
              (sortCR (nodes₁.filter (fun r => decide (inDegree edges₁ r = 0))))
              (fun v => (inDegree edges₁ v : Int)))
            (sortCR (nodes₁.filter (fun r => decide (inDegree edges₁ r = 0))))
            (fun v => (inDegree edges₁ v : Int)) []).length ≠ nodes₁.length then
        kahnLoop edges₁
            (kahnFuel edges₁
              (sortCR (nodes₁.filter (fun r => decide (inDegree edges₁ r = 0))))
              (fun v => (inDegree edges₁ v : Int)))
            (sortCR (nodes₁.filter (fun r => decide (inDegree edges₁ r = 0))))
            (fun v => (inDegree edges₁ v : Int)) [] ++
          sortCR (nodes₁.filter (fun r => decide (r ∉ kahnLoop edges₁
            (kahnFuel edges₁
              (sortCR (nodes₁.filter (fun r => decide (inDegree edges₁ r = 0))))
              (fun v => (inDegree edges₁ v : Int)))
            (sortCR (nodes₁.filter (fun r => decide (inDegree edges₁ r = 0))))
            (fun v => (inDegree edges₁ v : Int)) [])))
      else
        kahnLoop edges₁
            (kahnFuel edges₁
              (sortCR (nodes₁.filter (fun r => decide (inDegree edges₁ r = 0))))
              (fun v => (inDegree edges₁ v : Int)))
            (sortCR (nodes₁.filter (fun r => decide (inDegree edges₁ r = 0))))
            (fun v => (inDegree edges₁ v : Int)) []) := rfl
  have h2 : topologicalSort edges₂ nodes₂ =
      (if (kahnLoop edges₂
            (kahnFuel edges₂
              (sortCR (nodes₂.filter (fun r => decide (inDegree edges₂ r = 0))))
              (fun v => (inDegree edges₂ v : Int)))
            (sortCR (nodes₂.filter (fun r => decide (inDegree edges₂ r = 0))))
            (fun v => (inDegree edges₂ v : Int)) []).length ≠ nodes₂.length then
        kahnLoop edges₂
            (kahnFuel edges₂
              (sortCR (nodes₂.filter (fun r => decide (inDegree edges₂ r = 0))))
              (fun v => (inDegree edges₂ v : Int)))
            (sortCR (nodes₂.filter (fun r => decide (inDegree edges₂ r = 0))))
            (fun v => (inDegree edges₂ v : Int)) [] ++
          sortCR (nodes₂.filter (fun r => decide (r ∉ kahnLoop edges₂
            (kahnFuel edges₂
              (sortCR (nodes₂.filter (fun r => decide (inDegree edges₂ r = 0))))
              (fun v => (inDegree edges₂ v : Int)))
            (sortCR (nodes₂.filter (fun r => decide (inDegree edges₂ r = 0))))
            (fun v => (inDegree edges₂ v : Int)) [])))
      else
        kahnLoop edges₂
            (kahnFuel edges₂
              (sortCR (nodes₂.filter (fun r => decide (inDegree edges₂ r = 0))))
              (fun v => (inDegree edges₂ v : Int)))
            (sortCR (nodes₂.filter (fun r => decide (inDegree edges₂ r = 0))))
            (fun v => (inDegree edges₂ v : Int)) []) := rfl
  rw [h1, h2, hzero, hind, hfuel, kahnLoop_congr hpe, hpn.length_eq,
    sortCR_eq_of_perm (hpn.filter _)]

/-- Python `list.insert(i, x)`: insert before index `i`, appending when `i`
is at least the length (as Python does). -/
def insertAt (l : List ComponentReference) (i : Nat) (x : ComponentReference) :
    List ComponentReference :=
  match l, i with
  | l, 0 => x :: l
  | [], _ + 1 => [x]
  | y :: ys, i + 1 => y :: insertAt ys i x

/-- The position map `{ref: idx for idx, ref in enumerate(ideal_order)}`
(line 236); on duplicate keys the last index wins, as in a Python dict
comprehension. -/
def idealPositionsOf (ideal : List ComponentReference) :
    ComponentReference → Option Nat :=
  fun r => (ideal.enum.filter (fun p => decide (p.2 = r))).foldl
    (fun _ p => some p.1) none

/-- The `(min_pos, max_pos)` scanning loop of `_find_best_position` (lines
273–288): walk the current order with its indices; an already-placed node
whose ideal position precedes `ref`'s raises `min_pos` to just past it, one
whose ideal position follows `ref`'s lowers `max_pos` to its index. -/
def positionBoundsAux (refIdealPos : Nat)
    (idealPositions : ComponentReference → Option Nat) :
    List ComponentReference → Nat → Nat × Nat → Nat × Nat
  | [], _, mp => mp
  | x :: xs, idx, mp =>
    match idealPositions x with
    | none => positionBoundsAux refIdealPos idealPositions xs (idx + 1) mp
    | some q =>
      if q < refIdealPos then
        positionBoundsAux refIdealPos idealPositions xs (idx + 1) (max mp.1 (idx + 1), mp.2)
      else if refIdealPos < q then
        positionBoundsAux refIdealPos idealPositions xs (idx + 1) (mp.1, min mp.2 idx)
      else positionBoundsAux refIdealPos idealPositions xs (idx + 1) mp

def findPositionBounds (ref : ComponentReference)
    (currentOrder : List ComponentReference)
    (idealPositions : ComponentReference → Option Nat) : Nat × Nat :=
  positionBoundsAux ((idealPositions ref).getD 0) idealPositions currentOrder 0
    (0, currentOrder.length)

/-- `OrderGenerator._find_best_position` (lines 247–291).  The function
returns `min_pos`; `max_pos` is computed but never used for the returned
index.  The source reads `ideal_positions[ref]`, which is present for every
ref the merge inserts; `getD 0` mirrors that total lookup. -/
def findBestPosition (ref : ComponentReference)
    (currentOrder : List ComponentReference)
    (idealPositions : ComponentReference → Option Nat) : Nat :=
  if currentOrder.isEmpty then 0
  else (findPositionBounds ref currentOrder idealPositions).1

/-- `OrderGenerator._merge_orders` (lines 219–245): copy `base_order` and
insert each node of `ideal_order` missing from it, left to right, at its best
position. -/
def mergeOrders (ideal_order base_order : List ComponentReference) :
    List ComponentReference :=
  if (ideal_order.filter (fun r => decide (r ∉ base_order))).isEmpty then base_order
  else
    (ideal_order.filter (fun r => decide (r ∉ base_order))).foldl
      (fun result ref =>
        insertAt result (findBestPosition ref result (idealPositionsOf ideal_order)) ref)
      base_order

/-- Python truthiness of the optional `base_order` argument: `if base_order:`
is false both for `None` and for an empty list. -/
def baseTruthy : Option (List ComponentReference) → Bool
  | none => false
  | some b => !b.isEmpty

/-- The working node set of `generate` (lines 46–54): the components with
rules, plus — when a base order is given — the base-order members that are
selected. -/
def componentsToOrderOf (rules : List Rule)
    (selectedComponents : List ComponentReference)
    (base_order : Option (List ComponentReference)) : List ComponentReference :=
  if baseTruthy base_order then
    unionSet (getComponentsWithRules rules selectedComponents)
      ((base_order.getD []).filter (fun ref => decide (ref ∈ selectedComponents)))
  else getComponentsWithRules rules selectedComponents

/-- The `ideal_order` computed at line 60. -/
def idealOrderOf (rules : List Rule) (selectedComponents : List ComponentReference)
    (base_order : Option (List ComponentReference)) : List ComponentReference :=
  topologicalSort
    (buildDependencyGraph rules (componentsToOrderOf rules selectedComponents base_order))
    (componentsToOrderOf rules selectedComponents base_order)

/-- `OrderGenerator.generate` (lines 29–65). -/
def generate (rules : List Rule) (selectedComponents : List ComponentReference)
    (base_order : Option (List ComponentReference)) : List ComponentReference :=
  if selectedComponents.isEmpty then []
  else if (componentsToOrderOf rules selectedComponents base_order).isEmpty then
    (if baseTruthy base_order then base_order.getD [] else [])
  else if !baseTruthy base_order then
    idealOrderOf rules selectedComponents base_order
  else mergeOrders (idealOrderOf rules selectedComponents base_order) (base_order.getD [])

theorem insertAt_count (l : List ComponentReference) (i : Nat)
    (x a : ComponentReference) :
    (insertAt l i x).count a = l.count a + (if x = a then 1 else 0) := by
  induction l generalizing i with
  | nil =>
    cases i with
    | zero => simp [insertAt, List.count_cons, List.count_nil]
    | succ n => simp [insertAt, List.count_cons, List.count_nil]
  | cons y ys ih =>
    cases i with
    | zero =>
      simp only [insertAt, List.count_cons]
      by_cases hxa : x = a
      · simp [hxa]
      · simp [hxa, fun h => hxa (by simpa using h)]
    | succ n =>
      simp only [insertAt, List.count_cons, ih]
      omega

theorem insertAt_length (l : List ComponentReference) (i : Nat)
    (x : ComponentReference) : (insertAt l i x).length = l.length + 1 := by
  induction l generalizing i with
  | nil => cases i <;> simp [insertAt]
  | cons y ys ih =>
    cases i with
    | zero => simp [insertAt]
    | succ n => simp [insertAt, ih]

theorem insertAt_filter_of_neg {l : List ComponentReference} {i : Nat}
    {x : ComponentReference} {p : ComponentReference → Bool} (hx : p x = false) :
    (insertAt l i x).filter p = l.filter p := by
  induction l generalizing i with
  | nil => cases i <;> simp [insertAt, hx]
  | cons y ys ih =>
    cases i with
    | zero => simp [insertAt, List.filter_cons, hx]
    | succ n =>
      simp only [insertAt, List.filter_cons, ih]

/-- Counting through the insertion fold of `_merge_orders`, for an arbitrary
position strategy. -/
theorem foldl_insertAt_count
    (posf : List ComponentReference → ComponentReference → Nat) :
    ∀ (ti acc : List ComponentReference) (a : ComponentReference),
      (ti.foldl (fun res ref => insertAt res (posf res ref) ref) acc).count a =
        acc.count a + ti.count a := by
  intro ti
  induction ti with
  | nil => simp
  | cons r rs ih =>
    intro acc a
    rw [List.foldl_cons, ih, insertAt_count, List.count_cons]
    by_cases hra : r = a
    · simp [hra]
      omega
    · have hbe : ¬ (r == a) = true := by simpa using hra
      simp [hra, hbe]

theorem foldl_insertAt_length
    (posf : List ComponentReference → ComponentReference → Nat) :
    ∀ (ti acc : List ComponentReference),
      (ti.foldl (fun res ref => insertAt res (posf res ref) ref) acc).length =
        acc.length + ti.length := by
  intro ti
  induction ti with
  | nil => simp
  | cons r rs ih =>
    intro acc
    rw [List.foldl_cons, ih, insertAt_length]
    simp only [List.length_cons]
    omega

theorem foldl_insertAt_filter
    (posf : List ComponentReference → ComponentReference → Nat)
    {p : ComponentReference → Bool} :
    ∀ (ti acc : List ComponentReference), (∀ r ∈ ti, p r = false) →
      (ti.foldl (fun res ref => insertAt res (posf res ref) ref) acc).filter p =
        acc.filter p := by
  intro ti
  induction ti with
  | nil => intro acc _; rfl
  | cons r rs ih =>
    intro acc hp
    rw [List.foldl_cons, ih _ (fun r' hr' => hp r' (List.mem_cons_of_mem r hr')),
      insertAt_filter_of_neg (hp r (List.mem_cons_self r rs))]

/-- The merge never reorders or removes `base_order` entries: filtering the
merged list down to the members of `base_order` returns `base_order` itself. -/
theorem mergeOrders_filter_base (ideal_order base_order : List ComponentReference) :
    (mergeOrders ideal_order base_order).filter
      (fun r => decide (r ∈ base_order)) = base_order := by
  have hbase : base_order.filter (fun r => decide (r ∈ base_order)) = base_order :=
    List.filter_eq_self.mpr (fun a ha => by simpa using ha)
  unfold mergeOrders
  split
  · exact hbase
  · rw [foldl_insertAt_filter _ _ base_order ?_]
    · exact hbase
    · intro r hr
      rcases List.mem_filter.mp hr with ⟨_, hnot⟩
      simpa using hnot

/-- Occurrence counts through the merge: each base occurrence is preserved,
and each missing ideal node is inserted exactly as often as it occurs in
`to_insert`. -/
theorem mergeOrders_count (ideal_order base_order : List ComponentReference)
    (a : ComponentReference) :
    (mergeOrders ideal_order base_order).count a =
      base_order.count a +
        (ideal_order.filter (fun r => decide (r ∉ base_order))).count a := by
  unfold mergeOrders
  split
  · rename_i hempty
    rw [List.isEmpty_iff] at hempty
    rw [hempty]
    simp
  · exact foldl_insertAt_count _ _ _ _

theorem mergeOrders_length (ideal_order base_order : List ComponentReference) :
    (mergeOrders ideal_order base_order).length =
      base_order.length +
        (ideal_order.filter (fun r => decide (r ∉ base_order))).length := by
  unfold mergeOrders
  split
  · rename_i hempty
    rw [List.isEmpty_iff] at hempty
    rw [hempty]
    simp
  · exact foldl_insertAt_length _ _ _

theorem componentsToOrderOf_nodup {rules : List Rule}
    {sel : List ComponentReference} {base : Option (List ComponentReference)} :
    (componentsToOrderOf rules sel base).Nodup := by
  unfold componentsToOrderOf
  split
  · exact unionSet_nodup getComponentsWithRules_nodup
  · exact getComponentsWithRules_nodup

theorem componentsToOrderOf_none (rules : List Rule) (sel : List ComponentReference) :
    componentsToOrderOf rules sel none = getComponentsWithRules rules sel := rfl

/-- The `ideal_order` is always a permutation of the working node set. -/
theorem idealOrderOf_spec (rules : List Rule) (sel : List ComponentReference)
    (base : Option (List ComponentReference)) :
    (idealOrderOf rules sel base).Nodup ∧
      (∀ v, v ∈ idealOrderOf rules sel base ↔
        v ∈ componentsToOrderOf rules sel base) ∧
      (idealOrderOf rules sel base).length =
        (componentsToOrderOf rules sel base).length := by
  unfold idealOrderOf
  exact topologicalSort_spec buildDependencyGraph_nodup
    (fun e he => buildDependencyGraph_mem_nodes he) componentsToOrderOf_nodup

/-- With no base order, a component appears in the generated order exactly
when it is selected and at least one rule (of any kind) names it. -/
theorem mem_generate_none {rules : List Rule} {sel : List ComponentReference}
    {ref : ComponentReference} :
    ref ∈ generate rules sel none ↔
      ref ∈ sel ∧ getRulesForComponent rules ref ≠ [] := by
  unfold generate
  split
  · rename_i hsel
    rw [List.isEmpty_iff] at hsel
    subst hsel
    simp
  · split
    · rename_i hempty
      rw [List.isEmpty_iff] at hempty
      rw [componentsToOrderOf_none] at hempty
      show ref ∈ (if baseTruthy none = true then (none : Option _).getD [] else []) ↔ _
      rw [if_neg (by simp [baseTruthy])]
      constructor
      · intro h
        exact absurd h (List.not_mem_nil ref)
      · intro h
        have := mem_getComponentsWithRules.mpr h
        rw [hempty] at this
        exact absurd this (List.not_mem_nil ref)
    · split
      · rcases idealOrderOf_spec rules sel none with ⟨_, hmem, _⟩
        rw [hmem, componentsToOrderOf_none, mem_getComponentsWithRules]
      · rename_i hbase
        exact absurd (by simp [baseTruthy] : (!baseTruthy none) = true) hbase

/-- Comparison of two optional ideal positions: constrains only nodes that
both carry a position. -/
def optPosLE (x y : Option Nat) : Bool :=
  match x, y with
  | some pa, some pb => decide (pa ≤ pb)
  | _, _ => true

/-- The consistency condition under which `min_pos ≤ max_pos`: placed nodes
that carry ideal positions appear in ascending position order. -/
def PlacedConsistent (cur : List ComponentReference)
    (f : ComponentReference → Option Nat) : Prop :=
  cur.Pairwise (fun a b => optPosLE (f a) (f b) = true)

instance (cur : List ComponentReference) (f : ComponentReference → Option Nat) :
    Decidable (PlacedConsistent cur f) := by
  unfold PlacedConsistent
  infer_instance

theorem positionBoundsAux_le (rp : Nat) (f : ComponentReference → Option Nat) :
    ∀ (l : List ComponentReference) (idx mn mx : Nat),
      l.Pairwise (fun a b => ∀ pa pb, f a = some pa → f b = some pb → pa ≤ pb) →
      mn ≤ idx → mn ≤ mx → (mx = idx + l.length ∨ mx < idx) →
      (mx < idx → ∀ a ∈ l, ∀ q, f a = some q → rp ≤ q) →
      (positionBoundsAux rp f l idx (mn, mx)).1 ≤
        (positionBoundsAux rp f l idx (mn, mx)).2 := by
  intro l
  induction l with
  | nil =>
    intro idx mn mx _ _ hmnmx _ _
    exact hmnmx
  | cons x xs ih =>
    intro idx mn mx hpw hmnidx hmnmx hshape hclamp
    rcases List.pairwise_cons.mp hpw with ⟨hx, hpw'⟩
    have hshape' : ∀ m, m = idx + (x :: xs).length ∨ m < idx →
        m < idx + 1 → m < idx := by
      intro m hm hlt
      rcases hm with rfl | h
      · simp only [List.length_cons] at hlt
        omega
      · exact h
    cases hfx : f x with
    | none =>
      have hstep : positionBoundsAux rp f (x :: xs) idx (mn, mx) =
          positionBoundsAux rp f xs (idx + 1) (mn, mx) := by
        conv_lhs => unfold positionBoundsAux
        rw [hfx]
      rw [hstep]
      apply ih (idx + 1) mn mx hpw' (by omega) hmnmx
      · rcases hshape with h | h
        · left
          simp only [List.length_cons] at h
          omega
        · right
          omega
      · intro hlt a ha q hq
        exact hclamp (hshape' mx hshape hlt) a (List.mem_cons_of_mem x ha) q hq
    | some q =>
      have hstep : positionBoundsAux rp f (x :: xs) idx (mn, mx) =
          (if q < rp then positionBoundsAux rp f xs (idx + 1) (max mn (idx + 1), mx)
           else if rp < q then positionBoundsAux rp f xs (idx + 1) (mn, min mx idx)
           else positionBoundsAux rp f xs (idx + 1) (mn, mx)) := by
        conv_lhs => unfold positionBoundsAux
        rw [hfx]
      rw [hstep]
      by_cases hq : q < rp
      · rw [if_pos hq]
        have hmxge : idx + 1 ≤ mx := by
          rcases hshape with h | h
          · simp only [List.length_cons] at h
            omega
          · exfalso
            exact absurd hq (not_lt.mpr (hclamp h x (List.mem_cons_self x xs) q hfx))
        apply ih (idx + 1) (max mn (idx + 1)) mx hpw' (by omega) (by omega)
        · rcases hshape with h | h
          · left
            simp only [List.length_cons] at h
            omega
          · right
            omega
        · intro hlt a ha q' hq'
          exact hclamp (hshape' mx hshape hlt) a (List.mem_cons_of_mem x ha) q' hq'
      · rw [if_neg hq]
        by_cases hq' : rp < q
        · rw [if_pos hq']
          apply ih (idx + 1) mn (min mx idx) hpw' (by omega) (by omega)
          · right
            omega
          · intro _ a ha p hp
            have := hx a ha q p hfx hp
            omega
        · rw [if_neg hq']
          apply ih (idx + 1) mn mx hpw' (by omega) hmnmx
          · rcases hshape with h | h
            · left
              simp only [List.length_cons] at h
              omega
            · right
              omega
          · intro hlt a ha p hp
            exact hclamp (hshape' mx hshape hlt) a (List.mem_cons_of_mem x ha) p hp

/-- Whenever the already-placed nodes carrying ideal positions appear in
ascending position order, the computed `min_pos` cannot exceed `max_pos`. -/
theorem findPositionBounds_le {ref : ComponentReference}
    {cur : List ComponentReference} {f : ComponentReference → Option Nat}
    (h : PlacedConsistent cur f) :
    (findPositionBounds ref cur f).1 ≤ (findPositionBounds ref cur f).2 := by
  have h' : cur.Pairwise
      (fun a b => ∀ pa pb, f a = some pa → f b = some pb → pa ≤ pb) := by
    refine h.imp ?_
    intro a b hab pa pb ha hb
    rw [ha, hb] at hab
    unfold optPosLE at hab
    exact of_decide_eq_true hab
  unfold findPositionBounds
  apply positionBoundsAux_le _ _ _ _ _ _ h' (Nat.le_refl 0) (Nat.zero_le _)
  · left
    omega
  · intro hx
    omega

theorem perm_isEmpty_eq {α : Type} {l₁ l₂ : List α} (h : l₁.Perm l₂) :
    l₁.isEmpty = l₂.isEmpty := by
  cases l₁ with
  | nil => rw [h.symm.eq_nil]
  | cons a t =>
    cases l₂ with
    | nil => exact absurd h.eq_nil (by simp)
    | cons b u => rfl

theorem perm_ne_nil_iff {α : Type} {l₁ l₂ : List α} (h : l₁.Perm l₂) :
    l₁ ≠ [] ↔ l₂ ≠ [] := by
  constructor
  · intro hne he
    exact hne ((he ▸ h).eq_nil)
  · intro hne he
    exact hne ((he ▸ h.symm).eq_nil)

/-- The collected component set depends only on the rule set and the selected
set, not on their enumeration order. -/
theorem getComponentsWithRules_perm {rules₁ rules₂ : List Rule}
    {sel₁ sel₂ : List ComponentReference}
    (hr : rules₁.Perm rules₂) (hs : sel₁.Perm sel₂) :
    (getComponentsWithRules rules₁ sel₁).Perm (getComponentsWithRules rules₂ sel₂) := by
  rw [List.perm_ext_iff_of_nodup getComponentsWithRules_nodup getComponentsWithRules_nodup]
  intro a
  rw [mem_getComponentsWithRules, mem_getComponentsWithRules]
  have hrfc : (getRulesForComponent rules₁ a).Perm (getRulesForComponent rules₂ a) :=
    hr.filter _
  rw [hs.mem_iff, perm_ne_nil_iff hrfc]

theorem componentsToOrderOf_perm {rules₁ rules₂ : List Rule}
    {sel₁ sel₂ : List ComponentReference} (base : Option (List ComponentReference))
    (hr : rules₁.Perm rules₂) (hs : sel₁.Perm sel₂) :
    (componentsToOrderOf rules₁ sel₁ base).Perm
      (componentsToOrderOf rules₂ sel₂ base) := by
  unfold componentsToOrderOf
  by_cases hb : baseTruthy base = true
  · rw [if_pos hb, if_pos hb]
    have hfilter : (base.getD []).filter (fun ref => decide (ref ∈ sel₁)) =
        (base.getD []).filter (fun ref => decide (ref ∈ sel₂)) := by
      apply List.filter_congr
      intro x _
      have : x ∈ sel₁ ↔ x ∈ sel₂ := hs.mem_iff
      simp [this]
    rw [hfilter]
    exact unionSet_perm (getComponentsWithRules_perm hr hs) _
  · rw [if_neg hb, if_neg hb]
    exact getComponentsWithRules_perm hr hs

/-- Full determinism of the pipeline: permuting the rule list and the
selected-components list leaves the generated order unchanged. -/
theorem generate_perm {rules₁ rules₂ : List Rule}
    {sel₁ sel₂ : List ComponentReference} {base : Option (List ComponentReference)}
    (hr : rules₁.Perm rules₂) (hs : sel₁.Perm sel₂) :
    generate rules₁ sel₁ base = generate rules₂ sel₂ base := by
  have hcto : (componentsToOrderOf rules₁ sel₁ base).Perm
      (componentsToOrderOf rules₂ sel₂ base) := componentsToOrderOf_perm base hr hs
  have hideal : idealOrderOf rules₁ sel₁ base = idealOrderOf rules₂ sel₂ base := by
    unfold idealOrderOf
    exact topologicalSort_congr (buildDependencyGraph_perm hr hcto) hcto
  unfold generate
  rw [perm_isEmpty_eq hs, perm_isEmpty_eq hcto, hideal]

/-- Modelled from the spec (§4.3 step 5): Kahn's algorithm that keeps the
ready set in ascending `(mod_id, comp_key)` order and removes the smallest
ready node at every step.  This is the behavior the specification ascribes to
`_topological_sort`; the source instead uses a FIFO deque. -/
def specMinFirstLoop (edges : List (ComponentReference × ComponentReference)) :
    Nat → List ComponentReference → (ComponentReference → Int) →
      List ComponentReference → List ComponentReference
  | _, [], _, result => result
  | 0, _ :: _, _, result => result
  | fuel + 1, r :: rs, indeg, result =>
    match sortCR (r :: rs) with
    | [] => result
    | current :: rest =>
      let s := (sortCR (succs edges current)).foldl processNeighbor (rest, indeg)
      specMinFirstLoop edges fuel s.1 s.2 (result ++ [current])

/-- Modelled from the spec: the full smallest-first topological sort. -/
def specMinFirstSort (edges : List (ComponentReference × ComponentReference))
    (nodes : List ComponentReference) : List ComponentReference :=
  specMinFirstLoop edges
    (kahnFuel edges (nodes.filter (fun r => decide (inDegree edges r = 0)))
      (fun v => (inDegree edges v : Int)))
    (nodes.filter (fun r => decide (inDegree edges r = 0)))
    (fun v => (inDegree edges v : Int)) []

def refA : ComponentReference := ⟨"a", "1"⟩
def refB : ComponentReference := ⟨"b", "1"⟩
def refC : ComponentReference := ⟨"c", "1"⟩
def refW : ComponentReference := ⟨"w", "1"⟩
def refX : ComponentReference := ⟨"x", "1"⟩
def refY : ComponentReference := ⟨"y", "1"⟩
def refZ : ComponentReference := ⟨"z", "1"⟩

/-- Rules for the C1 counterexample: `b` before `a`, and a rule that keeps
`c` in the working set but yields no edge (its other endpoint `w` is not
selected). -/
def c1Rules : List Rule :=
  [Rule.ord ⟨[refB], [refA], .BEFORE⟩, Rule.ord ⟨[refC], [refW], .BEFORE⟩]

/-- Claim C1, counterexample: the source's deque is FIFO, not an ordered
ready set.  On this graph (single edge `b → a`, `c` unconstrained) the code
visits `[b, c, a]`: after popping `b`, both `a` and `c` are ready and `a` is
lexicographically smaller, yet `c` is visited first because `a` was appended
at the back of the deque.  The smallest-first sort demanded by the claim
yields `[b, a, c]`. -/
theorem claim_C1_counterexample :
    generate c1Rules [refA, refB, refC] none = [refB, refC, refA] ∧
      specMinFirstSort
          (buildDependencyGraph c1Rules (componentsToOrderOf c1Rules [refA, refB, refC] none))
          (componentsToOrderOf c1Rules [refA, refB, refC] none) = [refB, refA, refC] ∧
      ([refB, refC, refA] : List ComponentReference) ≠ [refB, refA, refC] := by
  refine ⟨by decide, by decide, by decide⟩

/-- Claim C1, amended: the initial ready deque is sorted ascending and each
popped node's newly ready successors are appended in ascending order among
themselves, but the deque is FIFO — the smallest ready node is not
necessarily removed at every step.  What survives of the claim is the second
half: the visiting order is fully determined by the node set and the edge
set, independent of edge insertion order. -/
theorem claim_C1_amended {edges₁ edges₂ : List (ComponentReference × ComponentReference)}
    (nodes : List ComponentReference) (hperm : edges₁.Perm edges₂) :
    topologicalSort edges₁ nodes = topologicalSort edges₂ nodes :=
  topologicalSort_congr hperm (List.Perm.refl nodes)

theorem claim_C1_witness :
    ([((refB : ComponentReference), refA), (refC, refW)].Perm
        [((refC : ComponentReference), refW), (refB, refA)]) ∧
      topologicalSort [((refB : ComponentReference), refA), (refC, refW)]
          [refA, refB, refC] =
        topologicalSort [((refC : ComponentReference), refW), (refB, refA)]
          [refA, refB, refC] :=
  ⟨by decide, claim_C1_amended [refA, refB, refC] (by decide)⟩

/-- `generate` with a base order never reorders or removes base entries:
restricting the output to members of `base_order` returns `base_order`. -/
theorem generate_filter_base {rules : List Rule} {sel base : List ComponentReference}
    (h : sel ≠ []) :
    (generate rules sel (some base)).filter (fun r => decide (r ∈ base)) = base := by
  have hbase_self : base.filter (fun r => decide (r ∈ base)) = base :=
    List.filter_eq_self.mpr (fun a ha => by simpa using ha)
  unfold generate
  rw [if_neg (by simpa [List.isEmpty_iff] using h)]
  split
  · by_cases hb : baseTruthy (some base) = true
    · rw [if_pos hb]
      exact hbase_self
    · rw [if_neg hb]
      have hbe : base = [] := by
        unfold baseTruthy at hb
        simpa [List.isEmpty_iff] using hb
      subst hbe
      rfl
  · split
    · rename_i hb
      have hbe : base = [] := by
        unfold baseTruthy at hb
        simp only [Bool.not_eq_true', Bool.not_eq_false] at hb
        simpa [List.isEmpty_iff] using hb
      subst hbe
      simp
    · exact mergeOrders_filter_base _ _

def c2Rules : List Rule :=
  [Rule.ord ⟨[refA], [refC], .BEFORE⟩, Rule.ord ⟨[refC], [refB], .BEFORE⟩]

/-- Claim C2, counterexample: with rules `a before c before b` the ideal
order is `[a, c, b]`; merging into the contrary base order `[b, a]` inserts
`c`, and the scanning loop computes `min_pos = 2` (past `a` at index 1) but
`max_pos = 0` (`b` at index 0 follows `c` ideally) — so `min_pos > max_pos`,
refuting the claimed guarantee; the code inserts at `min_pos` regardless. -/
theorem claim_C2_counterexample :
    idealOrderOf c2Rules [refA, refB, refC] (some [refB, refA]) = [refA, refC, refB] ∧
      ((idealOrderOf c2Rules [refA, refB, refC] (some [refB, refA])).filter
        (fun r => decide (r ∉ [refB, refA]))) = [refC] ∧
      findPositionBounds refC [refB, refA]
        (idealPositionsOf (idealOrderOf c2Rules [refA, refB, refC] (some [refB, refA])))
        = (2, 0) ∧
      ¬ ((findPositionBounds refC [refB, refA]
            (idealPositionsOf (idealOrderOf c2Rules [refA, refB, refC] (some [refB, refA])))).1
          ≤ (findPositionBounds refC [refB, refA]
              (idealPositionsOf (idealOrderOf c2Rules [refA, refB, refC] (some [refB, refA])))).2) ∧
      generate c2Rules [refA, refB, refC] (some [refB, refA]) = [refB, refA, refC] := by
  refine ⟨by decide, by decide, by decide, by decide, by decide⟩

/-- Claim C2, amended: `min_pos ≤ max_pos` holds at an insertion whenever
the already-placed nodes that carry ideal positions appear in ascending
ideal-position order (in particular when the base order does not contradict
the ideal order); for an arbitrary base order it can fail, and
`_find_best_position` returns `min_pos` unconditionally. -/
theorem claim_C2_amended {ref : ComponentReference} {cur : List ComponentReference}
    {f : ComponentReference → Option Nat} (h : PlacedConsistent cur f) :
    (findPositionBounds ref cur f).1 ≤ (findPositionBounds ref cur f).2 :=
  findPositionBounds_le h

theorem claim_C2_witness :
    PlacedConsistent [refA, refB] (idealPositionsOf [refA, refC, refB]) ∧
      (findPositionBounds refC [refA, refB]
          (idealPositionsOf [refA, refC, refB])).1 ≤
        (findPositionBounds refC [refA, refB]
          (idealPositionsOf [refA, refC, refB])).2 :=
  ⟨by decide, claim_C2_amended (by decide)⟩

def c3Rules : List Rule := [Rule.dep ⟨[refX], [refY], false⟩]

def scenarioARules : List Rule := [Rule.dep ⟨[refX], [refY], true⟩]

/-- Claim C3, counterexample: the only rule is a `DependencyRule` with
`implicit_order=false` — not order-relevant per the claim — yet `x` and `y`
both appear in the result, because `_get_components_with_rules` adds a
reference whenever `get_rules_for_component` returns anything at all. -/
theorem claim_C3_counterexample :
    (∀ r ∈ c3Rules, ruleAffectsOrdering r = false) ∧
      refX ∈ generate c3Rules [refX, refY] none ∧
      generate c3Rules [refX, refY] none = [refX, refY] := by
  refine ⟨by decide, by decide, by decide⟩

/-- Claim C3, amended: with no base order, a selected component enters the
result exactly when at least one rule of ANY kind names it (as source or
target) — even a `DependencyRule` with `implicit_order=false`, or a rule
whose other endpoints are not selected.  Only components with no rules at all
are absent.  Scenario A is unaffected: `z` has no rule and is dropped. -/
theorem claim_C3_amended :
    (∀ (rules : List Rule) (sel : List ComponentReference) (ref : ComponentReference),
      ref ∈ generate rules sel none ↔
        ref ∈ sel ∧ getRulesForComponent rules ref ≠ []) ∧
      generate scenarioARules [refX, refY, refZ] none = [refY, refX] :=
  ⟨fun _ _ _ => mem_generate_none, by decide⟩

def c4Rules : List Rule := [Rule.ord ⟨[refA], [refB], .BEFORE⟩]

/-- Claim C4: base-order preservation.  Restricting the generated list to
the members of `base_order` gives back `base_order` itself, so pre-existing
entries are never reordered, dropped, or duplicated, whatever the ideal
order demands. -/
theorem claim_C4 (rules : List Rule) (sel base : List ComponentReference)
    (h : sel ≠ []) :
    (generate rules sel (some base)).filter (fun r => decide (r ∈ base)) = base :=
  generate_filter_base h

/-- Scenario C as the witness: a rule implies `a` before `b` but the base
order `[b, a]` is kept unchanged. -/
theorem claim_C4_witness :
    generate c4Rules [refA, refB] (some [refB, refA]) = [refB, refA] ∧
      (generate c4Rules [refA, refB] (some [refB, refA])).filter
        (fun r => decide (r ∈ [refB, refA])) = [refB, refA] :=
  ⟨by decide, claim_C4 c4Rules [refA, refB] [refB, refA] (by decide)⟩

/-- Claim C5: insertion completeness of the merge.  For any rule set,
selection and base order, the merged result has length
`|base| + |ideal \ base|`; occurrence counts show no entry is duplicated or
dropped, each missing ideal node is inserted exactly once, and the members
of the result are exactly those of `base_order` and `ideal_order`. -/
theorem claim_C5 (rules : List Rule) (sel base : List ComponentReference) :
    (mergeOrders (idealOrderOf rules sel (some base)) base).length =
        base.length + ((idealOrderOf rules sel (some base)).filter
          (fun r => decide (r ∉ base))).length ∧
      (∀ x, (mergeOrders (idealOrderOf rules sel (some base)) base).count x =
        base.count x + ((idealOrderOf rules sel (some base)).filter
          (fun r => decide (r ∉ base))).count x) ∧
      (∀ x, ((idealOrderOf rules sel (some base)).filter
        (fun r => decide (r ∉ base))).count x ≤ 1) ∧
      (∀ x, x ∈ mergeOrders (idealOrderOf rules sel (some base)) base ↔
        x ∈ base ∨ x ∈ idealOrderOf rules sel (some base)) := by
  rcases idealOrderOf_spec rules sel (some base) with ⟨hnodup, _, _⟩
  refine ⟨mergeOrders_length _ _, fun x => mergeOrders_count _ _ x, ?_, ?_⟩
  · intro x
    exact List.nodup_iff_count_le_one.mp (hnodup.filter _) x
  · intro x
    constructor
    · intro hx
      have hpos : 0 < (mergeOrders (idealOrderOf rules sel (some base)) base).count x :=
        List.count_pos_iff.mpr hx
      rw [mergeOrders_count] at hpos
      rcases Nat.lt_or_ge 0 (base.count x) with hb | hb
      · exact Or.inl (List.count_pos_iff.mp hb)
      · have : 0 < ((idealOrderOf rules sel (some base)).filter
            (fun r => decide (r ∉ base))).count x := by omega
        have hmem := List.count_pos_iff.mp this
        exact Or.inr (List.mem_of_mem_filter hmem)
    · intro hx
      have hpos : 0 < (mergeOrders (idealOrderOf rules sel (some base)) base).count x := by
        rw [mergeOrders_count]
        rcases hx with hx | hx
        · have := List.count_pos_iff.mpr hx
          omega
        · by_cases hxb : x ∈ base
          · have := List.count_pos_iff.mpr hxb
            omega
          · have hxf : x ∈ (idealOrderOf rules sel (some base)).filter
                (fun r => decide (r ∉ base)) :=
              List.mem_filter.mpr ⟨hx, by simpa using hxb⟩
            have := List.count_pos_iff.mpr hxf
            omega
      exact List.count_pos_iff.mp hpos

def c6Rules : List Rule :=
  [Rule.ord ⟨[refA], [refB], .BEFORE⟩, Rule.ord ⟨[refB], [refA], .BEFORE⟩]

/-- Claim C6: cycle fallback.  The sort is total (never an error value) and
always emits a permutation of the working node set — membership and length
agree — even when the rule graph is cyclic, in which case the unresolved
remainder is appended in ascending key order.  Scenario B: a direct two-node
cycle degrades to the lexicographic order `[a, b]`. -/
theorem claim_C6 :
    (∀ (rules : List Rule) (sel : List ComponentReference)
      (base : Option (List ComponentReference)),
      (idealOrderOf rules sel base).length =
          (componentsToOrderOf rules sel base).length ∧
        ∀ v, v ∈ idealOrderOf rules sel base ↔
          v ∈ componentsToOrderOf rules sel base) ∧
      generate c6Rules [refA, refB] none = [refA, refB] := by
  refine ⟨fun rules sel base => ?_, by decide⟩
  rcases idealOrderOf_spec rules sel base with ⟨_, hmem, hlen⟩
  exact ⟨hlen, hmem⟩

/-- Claim C7: determinism.  The generated order is a function of the rule
set and the selected set: permuting the rule list and the selected-components
list (hash/set and enumeration order) changes nothing. -/
theorem claim_C7 {rules₁ rules₂ : List Rule} {sel₁ sel₂ : List ComponentReference}
    (base : Option (List ComponentReference))
    (hr : rules₁.Perm rules₂) (hs : sel₁.Perm sel₂) :
    generate rules₁ sel₁ base = generate rules₂ sel₂ base :=
  generate_perm hr hs

theorem claim_C7_witness :
    generate c1Rules [refA, refB, refC] none =
      generate [Rule.ord ⟨[refC], [refW], .BEFORE⟩, Rule.ord ⟨[refB], [refA], .BEFORE⟩]
        [refC, refA, refB] none :=
  claim_C7 none (by decide) (by decide)

/-- `PAUSE_PREFIX` of core/models/PauseEntry.py (the marker word). -/
def pauseMarker : List Char := "pause".data

/-- A pause entry: `pause_id` and `description`, as in
core/models/PauseEntry.py (strings modelled as character lists). -/
structure PauseEntry where
  pause_id : List Char
  description : List Char
deriving DecidableEq

def digitChar (n : Nat) : Char := Char.ofNat (48 + n % 10)

/-- Decimal digits of a number, most significant first (`f"{n}"`), with
explicit recursion fuel. -/
def natDigitsAux : Nat → Nat → List Char
  | 0, _ => []
  | fuel + 1, n =>
    if n < 10 then [digitChar n] else natDigitsAux fuel (n / 10) ++ [digitChar (n % 10)]

def natDigits (n : Nat) : List Char := natDigitsAux (n + 1) n

/-- `PauseEntry.__init__`: the class counter is incremented and the fresh
entry carries `f"{PAUSE_PREFIX}:{counter}"`; `counter` here is the value
before the increment. -/
def mkPauseEntry (counter : Nat) (description : List Char) : PauseEntry :=
  { pause_id := pauseMarker ++ [':'] ++ natDigits (counter + 1)
    description := description }

/-- Split at the first occurrence of `"::"`, the behavior of
`component_id.split("::", 1)`: the remainder after the first separator is
kept whole. -/
def splitOnSepFirst : List Char → Option (List Char × List Char)
  | [] => none
  | c :: rest =>
    if c = ':' ∧ rest.head? = some ':' then some ([], rest.tail)
    else (splitOnSepFirst rest).map (fun p => (c :: p.1, p.2))

/-- `PauseEntry.parse` (lines 19–29): split on the first `"::"` when
present, else the whole string is the id and the description is empty. -/
def PauseEntry.parse (component_id : List Char) : List Char × List Char :=
  match splitOnSepFirst component_id with
  | some (pause_id, description) => (pause_id, description)
  | none => (component_id, [])

/-- `PauseEntry.__str__` (lines 40–43): `"<id>::<description>"` when the
description is nonempty (Python truthiness), else just the id. -/
def PauseEntry.str (e : PauseEntry) : List Char :=
  if e.description ≠ [] then e.pause_id ++ [':', ':'] ++ e.description
  else e.pause_id

/-- Whether the string contains the separator `"::"`. -/
def hasSep : List Char → Bool
  | [] => false
  | c :: rest => (decide (c = ':' ∧ rest.head? = some ':')) || hasSep rest

theorem splitOnSepFirst_eq_none {l : List Char} (h : hasSep l = false) :
    splitOnSepFirst l = none := by
  induction l with
  | nil => rfl
  | cons c rest ih =>
    unfold hasSep at h
    rw [Bool.or_eq_false_iff] at h
    unfold splitOnSepFirst
    rw [if_neg (by simpa using h.1), ih h.2]
    rfl

theorem splitOnSepFirst_append {id desc : List Char}
    (h : hasSep (id ++ [':']) = false) :
    splitOnSepFirst (id ++ ':' :: ':' :: desc) = some (id, desc) := by
  induction id with
  | nil =>
    show splitOnSepFirst (':' :: ':' :: desc) = some ([], desc)
    unfold splitOnSepFirst
    rw [if_pos (by simp)]
    rfl
  | cons c cs ih =>
    have h' : hasSep (c :: (cs ++ [':'])) = false := h
    simp only [hasSep] at h'
    rw [Bool.or_eq_false_iff] at h'
    have hnotsep : ¬ (c = ':' ∧ (cs ++ [':']).head? = some ':') := by simpa using h'.1
    have hcs := ih h'.2
    show splitOnSepFirst (c :: (cs ++ ':' :: ':' :: desc)) = _
    unfold splitOnSepFirst
    rw [if_neg ?_, hcs]
    · simp
    · intro hcon
      rcases hcon with ⟨hc, hh⟩
      apply hnotsep
      refine ⟨hc, ?_⟩
      cases cs with
      | nil =>
        simp only [List.nil_append, List.head?] at hh ⊢
      | cons d ds =>
        simpa using hh

theorem hasSep_cons_false {c : Char} {l : List Char}
    (h1 : ¬ (c = ':' ∧ l.head? = some ':')) (h2 : hasSep l = false) :
    hasSep (c :: l) = false := by
  unfold hasSep
  rw [Bool.or_eq_false_iff]
  exact ⟨by simpa using h1, h2⟩

theorem hasSep_no_colon_append {l : List Char} (h : ∀ c ∈ l, c ≠ ':') :
    hasSep (l ++ [':']) = false := by
  induction l with
  | nil => rfl
  | cons c cs ih =>
    refine hasSep_cons_false ?_ (ih (fun d hd => h d (List.mem_cons_of_mem c hd)))
    rintro ⟨hc, _⟩
    exact h c (List.mem_cons_self c cs) hc

theorem natDigitsAux_digits : ∀ (fuel n : Nat), ∀ c ∈ natDigitsAux fuel n,
    ∃ k, k < 10 ∧ c = digitChar k := by
  intro fuel
  induction fuel with
  | zero =>
    intro n c hc
    exact absurd hc (List.not_mem_nil c)
  | succ fuel ih =>
    intro n c hc
    unfold natDigitsAux at hc
    split at hc
    · rename_i hn
      rcases List.mem_singleton.mp hc with rfl
      exact ⟨n, hn, rfl⟩
    · rcases List.mem_append.mp hc with hc' | hc'
      · exact ih (n / 10) c hc'
      · rcases List.mem_singleton.mp hc' with rfl
        exact ⟨n % 10, Nat.mod_lt _ (by omega), rfl⟩

theorem digitChar_ne_colon : ∀ k, k < 10 → digitChar k ≠ ':' := by decide

theorem natDigits_ne_colon : ∀ n, ∀ c ∈ natDigits n, c ≠ ':' := by
  intro n c hc
  rcases natDigitsAux_digits (n + 1) n c hc with ⟨k, hk, rfl⟩
  exact digitChar_ne_colon k hk

theorem natDigits_ne_nil (n : Nat) : natDigits n ≠ [] := by
  unfold natDigits natDigitsAux
  split
  · simp
  · simp

/-- The pause id `"pause:<n>"` contains no `"::"`, even when another colon
is appended after it. -/
theorem pauseId_no_sep (n : Nat) :
    hasSep ((pauseMarker ++ [':'] ++ natDigits (n + 1)) ++ [':']) = false := by
  have hdigits : hasSep (natDigits (n + 1) ++ [':']) = false :=
    hasSep_no_colon_append (natDigits_ne_colon (n + 1))
  have hmid : hasSep (':' :: (natDigits (n + 1) ++ [':'])) = false := by
    refine hasSep_cons_false ?_ hdigits
    rintro ⟨_, hh⟩
    rcases hd : natDigits (n + 1) with _ | ⟨d, ds⟩
    · exact absurd hd (natDigits_ne_nil (n + 1))
    · rw [hd] at hh
      simp only [List.cons_append, List.head?] at hh
      have : d = ':' := by simpa using hh
      exact natDigits_ne_colon (n + 1) d (hd ▸ List.mem_cons_self d ds) this
  show hasSep ('p' :: 'a' :: 'u' :: 's' :: 'e' :: ':' :: (natDigits (n + 1) ++ [':'])) = false
  refine hasSep_cons_false (by simp) ?_
  refine hasSep_cons_false (by simp) ?_
  refine hasSep_cons_false (by simp) ?_
  refine hasSep_cons_false (by simp) ?_
  refine hasSep_cons_false ?_ hmid
  rintro ⟨he, _⟩
  exact absurd he (by decide)

theorem hasSep_of_append_false {l l' : List Char} (h : hasSep (l ++ l') = false) :
    hasSep l = false := by
  induction l with
  | nil => rfl
  | cons c cs ih =>
    have h' : hasSep (c :: (cs ++ l')) = false := h
    simp only [hasSep] at h'
    rw [Bool.or_eq_false_iff] at h'
    refine hasSep_cons_false ?_ (ih h'.2)
    rintro ⟨hc, hh⟩
    have hfalse := h'.1
    rw [decide_eq_false_iff_not] at hfalse
    apply hfalse
    refine ⟨hc, ?_⟩
    cases cs with
    | nil => exact absurd hh (by simp)
    | cons d ds => simpa using hh

/-- Claim C8: pause round-trip.  For every pause entry — any counter value
and any description, including descriptions that themselves contain `"::"`
or are empty — parsing the string encoding recovers the id and description
exactly. -/
theorem claim_C8 (counter : Nat) (description : List Char) :
    PauseEntry.parse (PauseEntry.str (mkPauseEntry counter description)) =
      ((mkPauseEntry counter description).pause_id,
        (mkPauseEntry counter description).description) := by
  unfold PauseEntry.str
  by_cases hd : (mkPauseEntry counter description).description ≠ []
  · rw [if_pos hd]
    unfold PauseEntry.parse
    have harr : (mkPauseEntry counter description).pause_id ++ [':', ':'] ++
          (mkPauseEntry counter description).description
        = (pauseMarker ++ [':'] ++ natDigits (counter + 1)) ++
            ':' :: ':' :: description := by
      show (pauseMarker ++ [':'] ++ natDigits (counter + 1)) ++ [':', ':'] ++ description = _
      simp
    rw [harr, splitOnSepFirst_append (pauseId_no_sep counter)]
    rfl
  · rw [if_neg hd]
    unfold PauseEntry.parse
    have hnosep : hasSep (mkPauseEntry counter description).pause_id = false := by
      show hasSep (pauseMarker ++ [':'] ++ natDigits (counter + 1)) = false
      exact hasSep_of_append_false (pauseId_no_sep counter)
    rw [splitOnSepFirst_eq_none hnosep]
    have hdesc : (mkPauseEntry counter description).description = [] := by
      simpa using hd
    rw [hdesc]

/-- JSON values as produced by `json.load` (numbers collapsed to `Int`; the
number representation is irrelevant to error classification). -/
inductive Json where
  | null
  | bool (b : Bool)
  | num (n : Int)
  | str (s : List Char)
  | arr (items : List Json)
  | obj (entries : List (List Char × Json))

/-- Outcome of `open` plus `json.load` in `OrderFileParser.parse` (lines
60–70): a decoded document, or one of the failure classes the `except`
clauses distinguish. -/
inductive ReadResult where
  | ok (data : Json)
  | jsonDecodeError
  | fileNotFound
  | permissionError
  | otherIOError

/-- The two error kinds of core/OrderImportExportManager.py. -/
inductive OrderImportErr where
  | invalidFormat
  | fileReadError
deriving DecidableEq

/-- `PauseEntry.is_pause`: `component_id.startswith("pause:")`. -/
def isPause (component_id : List Char) : Bool :=
  (pauseMarker ++ [':']).isPrefixOf component_id

/-- Split at the first single `':'` (`"mod:comp"` separator). -/
def splitOnColonFirst : List Char → Option (List Char × List Char)
  | [] => none
  | c :: rest =>
    if c = ':' then some ([], rest)
    else (splitOnColonFirst rest).map (fun p => (c :: p.1, p.2))

/-- A parsed order-file token: a component reference or a pause marker. -/
inductive OrderToken where
  | comp (ref : ComponentReference)
  | pause (pause_id : List Char) (description : List Char)

/-- Modelled from the spec (§4.1, §6): one token of the order file
(`ComponentReference.from_string`; core/ComponentReference.py is not among
the provided sources).  A pause marker is accepted whole; any other token
must be `"<mod_id>:<comp_key>"`, failing when the separator is absent or
either part is empty. -/
def parseToken (s : List Char) : Option OrderToken :=
  if isPause s then
    some (OrderToken.pause (PauseEntry.parse s).1 (PauseEntry.parse s).2)
  else
    match splitOnColonFirst s with
    | none => none
    | some (modId, compKey) =>
      if modId = [] ∨ compKey = [] then none
      else some (OrderToken.comp ⟨String.mk modId, String.mk compKey⟩)

/-- Modelled from the spec: `ComponentReference.from_string_list` applied to
the decoded array items; a non-string member or a malformed token fails (in
Python the exception is caught at line 91 and re-raised as
`InvalidFormatError`). -/
def parseStringList (items : List Json) : Option (List OrderToken) :=
  items.mapM (fun it => match it with
    | Json.str s => parseToken s
    | _ => none)

def isWsChar (c : Char) : Bool :=
  decide (c = ' ' ∨ c = '\t' ∨ c = '\n' ∨ c = '\r')

def isDigitChar (c : Char) : Bool := decide ('0' ≤ c ∧ c ≤ '9')

def digitsToNat (l : List Char) : Nat :=
  l.foldl (fun acc c => acc * 10 + (c.toNat - 48)) 0

/-- Python `int(key)` on a JSON object key: optional surrounding whitespace,
optional sign, decimal digits.  (Python additionally accepts underscores
between digits; only the success set differs slightly, never the error
kind.) -/
def strToInt (s : List Char) : Option Int :=
  match ((s.dropWhile isWsChar).reverse.dropWhile isWsChar).reverse with
  | [] => none
  | c :: ds =>
    if c = '-' then
      if ds ≠ [] ∧ ds.all isDigitChar then some (-(digitsToNat ds : Int)) else none
    else if c = '+' then
      if ds ≠ [] ∧ ds.all isDigitChar then some ((digitsToNat ds : Int)) else none
    else if (c :: ds).all isDigitChar then some ((digitsToNat (c :: ds) : Int)) else none

/-- The walk over `data.items()` (lines 77–94): `int(key)` first (a
`ValueError` becomes `InvalidFormatError`), then the value must be a list,
then `from_string_list` must succeed (any exception becomes
`InvalidFormatError`); the first offending entry aborts. -/
def parseEntries :
    List (List Char × Json) → Except OrderImportErr (List (Int × List OrderToken))
  | [] => Except.ok []
  | (key, value) :: rest =>
    match strToInt key with
    | none => Except.error OrderImportErr.invalidFormat
    | some k =>
      match value with
      | Json.arr items =>
        match parseStringList items with
        | some refs => (parseEntries rest).map (fun acc => (k, refs) :: acc)
        | none => Except.error OrderImportErr.invalidFormat
      | _ => Except.error OrderImportErr.invalidFormat

/-- `OrderFileParser.parse` (lines 46–96), at the boundary of the I/O
effects: the read/decode outcome is the input; the `except` clauses classify
the failures (lines 63–70), the root must be an object (line 72), and the
entries are walked in order. -/
def OrderFileParser.parse (r : ReadResult) :
    Except OrderImportErr (List (Int × List OrderToken)) :=
  match r with
  | ReadResult.fileNotFound => Except.error OrderImportErr.fileReadError
  | ReadResult.permissionError => Except.error OrderImportErr.fileReadError
  | ReadResult.jsonDecodeError => Except.error OrderImportErr.invalidFormat
  | ReadResult.otherIOError => Except.error OrderImportErr.fileReadError
  | ReadResult.ok data =>
    match data with
    | Json.obj entries => parseEntries entries
    | _ => Except.error OrderImportErr.invalidFormat

/-- One entry violates the schema: non-integer key, non-array value, or a
member that is not a well-formed token string. -/
def badEntry (kv : List Char × Json) : Bool :=
  (strToInt kv.1).isNone ||
    (match kv.2 with
     | Json.arr items => (parseStringList items).isNone
     | _ => true)

/-- The document-level schema violations of the claim: non-object root or
some offending entry. -/
def schemaViolation : Json → Bool
  | Json.obj entries => entries.any badEntry
  | _ => true

theorem parseEntries_spec : ∀ entries : List (List Char × Json),
    (parseEntries entries = Except.error OrderImportErr.invalidFormat ↔
      entries.any badEntry = true) ∧
      parseEntries entries ≠ Except.error OrderImportErr.fileReadError := by
  intro entries
  induction entries with
  | nil =>
    constructor
    · constructor
      · intro h
        exact absurd h (by simp [parseEntries])
      · intro h
        exact absurd h (by simp)
    · simp [parseEntries]
  | cons kv rest ih =>
    obtain ⟨key, value⟩ := kv
    rcases ih with ⟨ih1, ih2⟩
    rw [List.any_cons]
    cases hkey : strToInt key with
    | none =>
      simp [parseEntries, badEntry, hkey]
    | some k =>
      cases value with
      | arr items =>
        cases hitems : parseStringList items with
        | none =>
          simp [parseEntries, badEntry, hkey, hitems]
        | some refs =>
          cases hrest : parseEntries rest with
          | error e =>
            cases e with
            | fileReadError => exact absurd hrest ih2
            | invalidFormat =>
              have hany := ih1.mp hrest
              simp [parseEntries, badEntry, hkey, hitems, hrest, hany, Except.map]
          | ok acc =>
            have hany : rest.any badEntry = false := by
              cases hA : rest.any badEntry with
              | false => rfl
              | true =>
                have hcontra := ih1.mpr hA
                rw [hrest] at hcontra
                exact absurd hcontra (by simp)
            simp [parseEntries, badEntry, hkey, hitems, hrest, hany, Except.map]
      | null =>
        simp [parseEntries, badEntry, hkey]
      | bool b =>
        simp [parseEntries, badEntry, hkey]
      | num n =>
        simp [parseEntries, badEntry, hkey]
      | str s =>
        simp [parseEntries, badEntry, hkey]
      | obj o =>
        simp [parseEntries, badEntry, hkey]

/-- C9.  Order-file parse error classification: the parse yields
`FileReadError` exactly for the I/O outcomes (missing file, permission
denial, other read fault) and `InvalidFormatError` exactly for the schema
violations (undecodable JSON, non-object root, non-integer key, non-array
value, malformed token); the two kinds are never conflated. -/
theorem claim_C9 : ∀ r : ReadResult,
    (OrderFileParser.parse r = Except.error OrderImportErr.fileReadError ↔
      (r = ReadResult.fileNotFound ∨ r = ReadResult.permissionError ∨
        r = ReadResult.otherIOError)) ∧
    (OrderFileParser.parse r = Except.error OrderImportErr.invalidFormat ↔
      (r = ReadResult.jsonDecodeError ∨
        ∃ d, r = ReadResult.ok d ∧ schemaViolation d = true)) := by
  intro r
  cases r with
  | fileNotFound =>
    constructor
    · simp [OrderFileParser.parse]
    · simp [OrderFileParser.parse]
  | permissionError =>
    constructor
    · simp [OrderFileParser.parse]
    · simp [OrderFileParser.parse]
  | otherIOError =>
    constructor
    · simp [OrderFileParser.parse]
    · simp [OrderFileParser.parse]
  | jsonDecodeError =>
    constructor
    · simp [OrderFileParser.parse]
    · simp [OrderFileParser.parse]
  | ok data =>
    have hps := parseEntries_spec
    cases data with
    | null =>
      constructor
      · simp [OrderFileParser.parse]
      · constructor
        · intro _
          exact Or.inr ⟨_, rfl, rfl⟩
        · intro _
          rfl
    | bool b =>
      constructor
      · simp [OrderFileParser.parse]
      · constructor
        · intro _
          exact Or.inr ⟨_, rfl, rfl⟩
        · intro _
          rfl
    | num n =>
      constructor
      · simp [OrderFileParser.parse]
      · constructor
        · intro _
          exact Or.inr ⟨_, rfl, rfl⟩
        · intro _
          rfl
    | str s =>
      constructor
      · simp [OrderFileParser.parse]
      · constructor
        · intro _
          exact Or.inr ⟨_, rfl, rfl⟩
        · intro _
          rfl
    | arr items =>
      constructor
      · simp [OrderFileParser.parse]
      · constructor
        · intro _
          exact Or.inr ⟨_, rfl, rfl⟩
        · intro _
          rfl
    | obj entries =>
      have hparse : OrderFileParser.parse (ReadResult.ok (Json.obj entries)) =
          parseEntries entries := rfl
      have hsv : schemaViolation (Json.obj entries) = entries.any badEntry := rfl
      rw [hparse]
      constructor
      · constructor
        · intro h
          exact absurd h (hps entries).2
        · intro h
          rcases h with h | h | h <;> exact absurd h (by simp)
      · constructor
        · intro h
          right
          exact ⟨Json.obj entries, rfl, by rw [hsv]; exact (hps entries).1.mp h⟩
        · intro h
          rcases h with h | ⟨d, hd, hviol⟩
          · exact absurd h (by simp)
          · have hdq : d = Json.obj entries := by
              injection hd with h1
              exact h1.symm
            rw [hdq, hsv] at hviol
            exact (hps entries).1.mpr hviol

/-- The store of Python list objects: cell `p` holds the list the pointer
`p` refers to. -/
abbrev Heap : Type := List (List ComponentReference)

/-- Dereference a pointer (out-of-range reads default to `[]`; the claims
are stated for in-range pointers). -/
def heapGet (h : Heap) (p : Nat) : List ComponentReference := h.getD p []

/-- In-place mutation of one list object. -/
def heapSet (h : Heap) (p : Nat) (v : List ComponentReference) : Heap := h.set p v

/-- One iteration of the insertion loop (lines 241–243) acting on the store:
`result.insert(best_position, ref)` mutates only the cell `resPtr`. -/
def mergeStepHeap (ideal : List ComponentReference) (resPtr : Nat)
    (hh : Heap) (ref : ComponentReference) : Heap :=
  heapSet hh resPtr
    (insertAt (heapGet hh resPtr)
      (findBestPosition ref (heapGet hh resPtr) (idealPositionsOf ideal)) ref)

/-- `_merge_orders` (lines 219–245) with the object store explicit:
`base_order` is a pointer into the heap; the early return (line 233) hands
back that pointer untouched, otherwise `result = base_order.copy()`
(line 239) allocates a fresh cell at the end of the heap and every
`result.insert(...)` mutates only that fresh cell. -/
def mergeOrdersHeap (ideal_order : List ComponentReference) (h : Heap)
    (basePtr : Nat) : Heap × Nat :=
  if (ideal_order.filter (fun r => decide (r ∉ heapGet h basePtr))).isEmpty then
    (h, basePtr)
  else
    ((ideal_order.filter (fun r => decide (r ∉ heapGet h basePtr))).foldl
      (mergeStepHeap ideal_order h.length) (h ++ [heapGet h basePtr]),
     h.length)

/-- `generate` (lines 29–65) with `selected_components` and the optional
`base_order` passed as pointers into the object store; only the merge branch
touches the heap, and the result list is returned by value. -/
def generateHeap (rules : List Rule) (h : Heap) (selPtr : Nat)
    (basePtr : Option Nat) : Heap × List ComponentReference :=
  if (heapGet h selPtr).isEmpty then (h, [])
  else if (componentsToOrderOf rules (heapGet h selPtr)
      (basePtr.map (heapGet h))).isEmpty then
    (h, if baseTruthy (basePtr.map (heapGet h)) then
          (basePtr.map (heapGet h)).getD []
        else [])
  else if !baseTruthy (basePtr.map (heapGet h)) then
    (h, idealOrderOf rules (heapGet h selPtr) (basePtr.map (heapGet h)))
  else
    ((mergeOrdersHeap (idealOrderOf rules (heapGet h selPtr)
          (basePtr.map (heapGet h))) h (basePtr.getD 0)).1,
     heapGet
       (mergeOrdersHeap (idealOrderOf rules (heapGet h selPtr)
          (basePtr.map (heapGet h))) h (basePtr.getD 0)).1
       (mergeOrdersHeap (idealOrderOf rules (heapGet h selPtr)
          (basePtr.map (heapGet h))) h (basePtr.getD 0)).2)

theorem heapGet_heapSet_ne (h : Heap) (p q : Nat) (v : List ComponentReference)
    (hpq : p ≠ q) : heapGet (heapSet h q v) p = heapGet h p := by
  unfold heapGet heapSet
  rw [List.getD_eq_getElem?_getD, List.getD_eq_getElem?_getD,
    List.getElem?_set_ne (Ne.symm hpq)]

theorem heapGet_heapSet_self (h : Heap) (p : Nat) (v : List ComponentReference)
    (hlt : p < h.length) : heapGet (heapSet h p v) p = v := by
  unfold heapGet heapSet
  rw [List.getD_eq_getElem?_getD, List.getElem?_set_self]
  · rfl
  · exact hlt

theorem heapGet_append_lt (h : Heap) (v : List ComponentReference) (p : Nat)
    (hlt : p < h.length) : heapGet (h ++ [v]) p = heapGet h p := by
  unfold heapGet
  rw [List.getD_eq_getElem?_getD, List.getD_eq_getElem?_getD,
    List.getElem?_append_left hlt]

theorem heapGet_append_self (h : Heap) (v : List ComponentReference) :
    heapGet (h ++ [v]) h.length = v := by
  unfold heapGet
  rw [List.getD_eq_getElem?_getD, List.getElem?_concat_length]
  rfl

theorem mergeFoldHeap_spec (ideal : List ComponentReference) (resPtr : Nat) :
    ∀ (toIns : List ComponentReference) (hh : Heap), resPtr < hh.length →
      (toIns.foldl (mergeStepHeap ideal resPtr) hh).length = hh.length ∧
      (∀ p, p ≠ resPtr →
        heapGet (toIns.foldl (mergeStepHeap ideal resPtr) hh) p = heapGet hh p) ∧
      heapGet (toIns.foldl (mergeStepHeap ideal resPtr) hh) resPtr =
        toIns.foldl
          (fun result ref =>
            insertAt result (findBestPosition ref result (idealPositionsOf ideal)) ref)
          (heapGet hh resPtr) := by
  intro toIns
  induction toIns with
  | nil =>
    intro hh _
    exact ⟨rfl, fun p _ => rfl, rfl⟩
  | cons r rs ih =>
    intro hh hlt
    have hlen : (mergeStepHeap ideal resPtr hh r).length = hh.length := by
      unfold mergeStepHeap heapSet
      exact List.length_set hh _ _
    have hlt' : resPtr < (mergeStepHeap ideal resPtr hh r).length := by
      rw [hlen]; exact hlt
    obtain ⟨l1, l2, l3⟩ := ih (mergeStepHeap ideal resPtr hh r) hlt'
    refine ⟨?_, ?_, ?_⟩
    · rw [List.foldl_cons, l1, hlen]
    · intro p hp
      rw [List.foldl_cons, l2 p hp]
      unfold mergeStepHeap
      exact heapGet_heapSet_ne _ _ _ _ hp
    · rw [List.foldl_cons, l3]
      have hres : heapGet (mergeStepHeap ideal resPtr hh r) resPtr =
          insertAt (heapGet hh resPtr)
            (findBestPosition r (heapGet hh resPtr) (idealPositionsOf ideal)) r := by
        unfold mergeStepHeap
        exact heapGet_heapSet_self hh resPtr _ hlt
      rw [hres, List.foldl_cons]

theorem mergeOrdersHeap_spec (ideal : List ComponentReference) (h : Heap)
    (basePtr : Nat) :
    (∀ p, p < h.length →
      heapGet (mergeOrdersHeap ideal h basePtr).1 p = heapGet h p) ∧
    heapGet (mergeOrdersHeap ideal h basePtr).1 (mergeOrdersHeap ideal h basePtr).2 =
      mergeOrders ideal (heapGet h basePtr) := by
  by_cases hins : (ideal.filter (fun r => decide (r ∉ heapGet h basePtr))).isEmpty
  · have heq : mergeOrdersHeap ideal h basePtr = (h, basePtr) := by
      unfold mergeOrdersHeap
      rw [if_pos hins]
    have hm : mergeOrders ideal (heapGet h basePtr) = heapGet h basePtr := by
      unfold mergeOrders
      rw [if_pos hins]
    rw [heq, hm]
    exact ⟨fun p _ => rfl, rfl⟩
  · have heq : mergeOrdersHeap ideal h basePtr =
        ((ideal.filter (fun r => decide (r ∉ heapGet h basePtr))).foldl
          (mergeStepHeap ideal h.length) (h ++ [heapGet h basePtr]),
         h.length) := by
      unfold mergeOrdersHeap
      rw [if_neg hins]
    have hm : mergeOrders ideal (heapGet h basePtr) =
        (ideal.filter (fun r => decide (r ∉ heapGet h basePtr))).foldl
          (fun result ref =>
            insertAt result (findBestPosition ref result (idealPositionsOf ideal)) ref)
          (heapGet h basePtr) := by
      unfold mergeOrders
      rw [if_neg hins]
    have hltApp : h.length < (h ++ [heapGet h basePtr]).length := by
      rw [List.length_append, List.length_singleton]
      omega
    obtain ⟨_, l2, l3⟩ := mergeFoldHeap_spec ideal h.length
      (ideal.filter (fun r => decide (r ∉ heapGet h basePtr)))
      (h ++ [heapGet h basePtr]) hltApp
    rw [heq, hm]
    constructor
    · intro p hp
      have hne : p ≠ h.length := Nat.ne_of_lt hp
      rw [l2 p hne]
      exact heapGet_append_lt h _ p hp
    · rw [l3, heapGet_append_self]

/-- C10.  Frame property: with the Python object store made explicit, a call
to `generate` never mutates the caller's `selected_components` or
`base_order` list objects — every heap cell that existed before the call
holds exactly the same list afterwards (the merge works on a fresh copy of
`base_order`) — and the returned list is the pure `generate` of the
dereferenced arguments, for a present and for an omitted `base_order`
alike. -/
theorem claim_C10 (rules : List Rule) (h : Heap) (selPtr basePtr : Nat)
    (_hbase : basePtr < h.length) :
    (∀ p, p < h.length →
      heapGet (generateHeap rules h selPtr (some basePtr)).1 p = heapGet h p) ∧
    (generateHeap rules h selPtr (some basePtr)).2 =
      generate rules (heapGet h selPtr) (some (heapGet h basePtr)) ∧
    (generateHeap rules h selPtr none).1 = h ∧
    (generateHeap rules h selPtr none).2 = generate rules (heapGet h selPtr) none := by
  obtain ⟨hframe, hcontent⟩ := mergeOrdersHeap_spec
    (idealOrderOf rules (heapGet h selPtr) (some (heapGet h basePtr))) h basePtr
  refine ⟨?_, ?_, ?_, ?_⟩
  · intro p hp
    unfold generateHeap
    simp only [Option.map_some', Option.getD_some]
    by_cases h1 : (heapGet h selPtr).isEmpty = true
    · rw [if_pos h1]
    · rw [if_neg h1]
      by_cases h2 : (componentsToOrderOf rules (heapGet h selPtr)
          (some (heapGet h basePtr))).isEmpty = true
      · rw [if_pos h2]
      · rw [if_neg h2]
        by_cases h3 : (!baseTruthy (some (heapGet h basePtr))) = true
        · rw [if_pos h3]
        · rw [if_neg h3]
          exact hframe p hp
  · unfold generateHeap generate
    simp only [Option.map_some', Option.getD_some]
    by_cases h1 : (heapGet h selPtr).isEmpty = true
    · rw [if_pos h1, if_pos h1]
    · rw [if_neg h1, if_neg h1]
      by_cases h2 : (componentsToOrderOf rules (heapGet h selPtr)
          (some (heapGet h basePtr))).isEmpty = true
      · rw [if_pos h2, if_pos h2]
      · rw [if_neg h2, if_neg h2]
        by_cases h3 : (!baseTruthy (some (heapGet h basePtr))) = true
        · rw [if_pos h3, if_pos h3]
        · rw [if_neg h3, if_neg h3]
          exact hcontent
  · unfold generateHeap
    simp only [Option.map_none']
    by_cases h1 : (heapGet h selPtr).isEmpty = true
    · rw [if_pos h1]
    · rw [if_neg h1]
      by_cases h2 : (componentsToOrderOf rules (heapGet h selPtr) none).isEmpty = true
      · rw [if_pos h2]
      · rw [if_neg h2, if_pos (show (!baseTruthy none) = true from rfl)]
  · unfold generateHeap generate
    simp only [Option.map_none']
    by_cases h1 : (heapGet h selPtr).isEmpty = true
    · rw [if_pos h1, if_pos h1]
    · rw [if_neg h1, if_neg h1]
      by_cases h2 : (componentsToOrderOf rules (heapGet h selPtr) none).isEmpty = true
      · rw [if_pos h2, if_pos h2]
      · rw [if_neg h2, if_neg h2, if_pos (show (!baseTruthy none) = true from rfl),
          if_pos (show (!baseTruthy none) = true from rfl)]

/-- Concrete instance of C10: two live list objects, the second passed as
`base_order`. -/
theorem claim_C10_witness :
    (1 : Nat) < ([[refA], [refB]] : Heap).length ∧
    ((∀ p, p < ([[refA], [refB]] : Heap).length →
        heapGet (generateHeap [] [[refA], [refB]] 0 (some 1)).1 p =
          heapGet [[refA], [refB]] p) ∧
      (generateHeap [] [[refA], [refB]] 0 (some 1)).2 =
        generate [] (heapGet [[refA], [refB]] 0) (some (heapGet [[refA], [refB]] 1)) ∧
      (generateHeap [] [[refA], [refB]] 0 none).1 = [[refA], [refB]] ∧
      (generateHeap [] [[refA], [refB]] 0 none).2 =
        generate [] (heapGet [[refA], [refB]] 0) none) :=
  ⟨by decide, claim_C10 [] [[refA], [refB]] 0 1 (by decide)⟩
